import Mathlib

/-!
Verification of the `dictation` push-to-talk utility.

The development shallowly embeds the Python sources of the repository
(two sibling application generations, `dictation/` and `whisper_dictation/`)
as executable Lean definitions over `List Char`, `Int`, `Rat` and explicit
state records, and proves the specified properties about them.

Strings are modelled as `List Char`; Python's `re` whitespace class `\s`
and `str.strip()` are modelled over the ASCII whitespace characters.
Wall-clock timestamps (`time.time()`) are modelled as rationals.
-/

namespace Dictation

/-! ### Text processor — `dictation/core/text_processor.py`

The function `normalize_text` applies, in order: `str.strip()`, then the
regex substitutions
1. `re.sub(r" +", " ", text)`
2. `re.sub(r"\s+([.,!?;:])", r"\1", text)`
3. `re.sub(r"([.,!?;:])(?=[^\s])", r"\1 ", text)`
4. `re.sub(r" +", " ", text)`
5. `re.sub(r"\s+([)\]\x22\x27])", r"\1", text)`
6. `re.sub(r"([(\[\x22\x27])\s+", r"\1", text)`
with an early return of empty input.  Each substitution is embedded as a
recursive function below, following the engine's leftmost-match,
greedy-quantifier, continue-after-match semantics.
-/

/-- The single-quote character, code 39. -/
def squote : Char := Char.ofNat 39

/-- The double-quote character, code 34. -/
def dquote : Char := Char.ofNat 34

/-- Python regex whitespace `\s` (and `str.strip()` whitespace), ASCII part:
space, tab, newline, carriage return, vertical tab, form feed. -/
def pyWs (c : Char) : Bool :=
  c = ' ' || c = '\t' || c = '\n' || c = '\r' || c = '\x0b' || c = '\x0c'

/-- The punctuation class `[.,!?;:]` of substitutions 2 and 3. -/
def punctChar (c : Char) : Bool :=
  c = '.' || c = ',' || c = '!' || c = '?' || c = ';' || c = ':'

/-- The closing class `[)\]\x22\x27]` of substitution 5. -/
def closerChar (c : Char) : Bool :=
  c = ')' || c = ']' || c = dquote || c = squote

/-- The opening class `[(\[\x22\x27]` of substitution 6 (the source's
character class repeats the double quote; the set is these four). -/
def openerChar (c : Char) : Bool :=
  c = '(' || c = '[' || c = dquote || c = squote

/-- Model of Python `str.strip()`: drop whitespace from both ends. -/
def stripStr (l : List Char) : List Char :=
  ((l.dropWhile pyWs).reverse.dropWhile pyWs).reverse

/-- Model of `re.sub(r" +", " ", text)`: every maximal run of space
characters is replaced by a single space — equivalently, every space
immediately followed by another space is deleted (the run's last space
survives). -/
def collapseSpaces : List Char → List Char
  | [] => []
  | [c] => [c]
  | c :: d :: cs =>
    if c = ' ' && d = ' ' then collapseSpaces (d :: cs)
    else c :: collapseSpaces (d :: cs)

/-- Helper for `rmWsBefore`: processes the list from the right; the
boolean component records whether the nearest non-whitespace character to
the right is in the class `tgt` (false when there is none). -/
def rmWsBeforeAux (tgt : Char → Bool) : List Char → List Char × Bool
  | [] => ([], false)
  | c :: cs =>
    let r := rmWsBeforeAux tgt cs
    if pyWs c then (if r.2 then r.1 else c :: r.1, r.2)
    else (c :: r.1, tgt c)

/-- Model of `re.sub(r"\s+(【tgt】)", r"\1", text)` (substitutions 2 and 5):
a maximal whitespace run immediately followed by a character of class `tgt`
is deleted — equivalently, a whitespace character is deleted exactly when
the nearest non-whitespace character to its right exists and is in `tgt`.
-/
def rmWsBefore (tgt : Char → Bool) (l : List Char) : List Char :=
  (rmWsBeforeAux tgt l).1

/-- Model of `re.sub(r"(【tgt】)(?=[^\s])", r"\1 ", text)` (substitution 3):
after a class character immediately followed by a non-whitespace character
a single space is inserted; the lookahead character is not consumed. -/
def insSpaceAfter (tgt : Char → Bool) : List Char → List Char
  | [] => []
  | c :: cs =>
    match cs with
    | d :: _ =>
      if tgt c && !pyWs d then c :: ' ' :: insSpaceAfter tgt cs
      else c :: insSpaceAfter tgt cs
    | [] => [c]

/-- Helper for `rmWsAfter`: scans left to right; `after_tgt` records
whether the nearest non-whitespace character to the left is in the class
`tgt` (false when there is none). -/
def rmWsAfterAux (tgt : Char → Bool) (after_tgt : Bool) : List Char → List Char
  | [] => []
  | c :: cs =>
    if pyWs c then
      if after_tgt then rmWsAfterAux tgt after_tgt cs
      else c :: rmWsAfterAux tgt after_tgt cs
    else c :: rmWsAfterAux tgt (tgt c) cs

/-- Model of `re.sub(r"(【tgt】)\s+", r"\1", text)` (substitution 6):
a maximal whitespace run immediately after a character of class `tgt` is
deleted — equivalently, a whitespace character is deleted exactly when the
nearest non-whitespace character to its left exists and is in `tgt`. -/
def rmWsAfter (tgt : Char → Bool) (l : List Char) : List Char :=
  rmWsAfterAux tgt false l

/-- Model of `normalize_text` from `dictation/core/text_processor.py`. -/
def normalize_text (l : List Char) : List Char :=
  if l = [] then l
  else
    rmWsAfter openerChar (rmWsBefore closerChar (collapseSpaces
      (insSpaceAfter punctChar (rmWsBefore punctChar (collapseSpaces
        (stripStr l))))))

/-! ### Audio recorder — `dictation/core/recorder.py` -/

/-- State of a `Recorder` object: the `recording` flag, the
`threading.Event` stop flag, the background-thread handle and the stored
completion callback (thread handles and callbacks are modelled by opaque
numeric identifiers), plus the construction parameters. -/
structure Recorder where
  sample_rate : Nat
  frames_per_buffer : Nat
  max_duration : Option Rat
  recording : Bool
  stop_flag : Bool
  record_thread : Option Nat
  on_complete : Option Nat
deriving DecidableEq, Repr

/-- Model of `Recorder.__init__`. -/
def Recorder.init (sample_rate frames_per_buffer : Nat) (max_duration : Option Rat) :
    Recorder :=
  { sample_rate := sample_rate
    frames_per_buffer := frames_per_buffer
    max_duration := max_duration
    recording := false
    stop_flag := false
    record_thread := none
    on_complete := none }

/-- Model of `Recorder.start`: raises `RuntimeError("Recording is already
in progress")` when `self.recording` is true (first component carries the
raised message), otherwise stores the callback, clears the stop flag and
starts a new background thread.  The state component is returned unchanged
on the raising path. -/
def Recorder.start (r : Recorder) (cb : Nat) (new_thread : Nat) :
    Option (List Char) × Recorder :=
  if r.recording then
    (some ("Recording is already in progress".data), r)
  else
    (none,
      { r with
        on_complete := some cb
        stop_flag := false
        record_thread := some new_thread })

/-- Model of `Recorder.stop`: a no-op when not recording, otherwise sets
the stop flag and joins (clears) the thread handle. -/
def Recorder.stop (r : Recorder) : Recorder :=
  if !r.recording then r
  else { r with stop_flag := true, record_thread := none }

/-- Conversion of one int16 device sample to float, from
`Recorder._record_impl`: `astype(np.float32) / 32768.0`. -/
def int16ToFloat (v : Int) : Rat :=
  (v : Rat) / 32768

/-- Tail of `Recorder._record_impl`: the captured int16 samples are
converted to floats normalized by 32768, and the completion callback is
invoked with the buffer only when a callback is stored and the buffer is
non-empty.  The result is the buffer passed to the callback, or `none`
when the callback is not invoked. -/
def record_impl_delivery (on_complete_set : Bool) (samples : List Int) :
    Option (List Rat) :=
  let audio_data := samples.map int16ToFloat
  if on_complete_set && decide (0 < audio_data.length) then some audio_data
  else none

/-! ### Transcriber — `dictation/core/transcriber.py` -/

/-- The `LANGUAGE_MAP` table: ISO 639-1 codes to full language names. -/
def LANGUAGE_MAP : List (String × String) :=
  [("en", "English"), ("zh", "Chinese"), ("ja", "Japanese"), ("ko", "Korean"),
   ("es", "Spanish"), ("fr", "French"), ("de", "German"), ("it", "Italian"),
   ("pt", "Portuguese"), ("ru", "Russian"), ("ar", "Arabic"), ("hi", "Hindi"),
   ("vi", "Vietnamese"), ("th", "Thai"), ("id", "Indonesian"), ("ms", "Malay"),
   ("nl", "Dutch"), ("pl", "Polish"), ("tr", "Turkish"), ("uk", "Ukrainian"),
   ("cs", "Czech"), ("sv", "Swedish"), ("da", "Danish"), ("fi", "Finnish"),
   ("no", "Norwegian"), ("he", "Hebrew"), ("el", "Greek"), ("ro", "Romanian"),
   ("hu", "Hungarian"), ("sk", "Slovak"), ("bg", "Bulgarian"), ("hr", "Croatian"),
   ("lt", "Lithuanian"), ("lv", "Latvian"), ("et", "Estonian"),
   ("sl", "Slovenian"), ("ca", "Catalan")]

/-- One result object returned by the underlying ASR model call; it
exposes a `text` field. -/
structure ASRResult where
  text : List Char
deriving DecidableEq, Repr

/-- Line 110 of the source: `lang_name = LANGUAGE_MAP.get(language) if
language else None`.  A `None` or empty language code (falsy) gives
`None`; otherwise the dict lookup, which is `None` for codes not in the
table.  `None` means auto-detect for the model. -/
def qwen3_lang_name (language : Option String) : Option String :=
  match language with
  | none => none
  | some l => if l = "" then none else (LANGUAGE_MAP.lookup l)

/-- Result handling of `Qwen3Transcriber.transcribe`: the first result's
text, stripped, or the empty string when the model returned no results. -/
def first_result_trimmed (results : List ASRResult) : List Char :=
  match results with
  | [] => []
  | r :: _ => stripStr r.text

/-- Model of `Qwen3Transcriber.transcribe`: the underlying model call is
abstracted as a function from the passed language argument to the result
list; the language argument passed is `qwen3_lang_name language`. -/
def Qwen3Transcriber.transcribe (model : Option String → List ASRResult)
    (language : Option String) : List Char :=
  first_result_trimmed (model (qwen3_lang_name language))

/-! ### Application coordinator — `dictation/__main__.py` -/

/-- UI lifecycle callbacks received by the `DictationUI` object. -/
inductive UIEvent where
  | recording_start : UIEvent
  | recording_stop : UIEvent
  | transcription_complete (text : List Char) : UIEvent
  | error (msg : List Char) : UIEvent
deriving DecidableEq, Repr

/-- Model of `DictationApp.on_recording_complete`.  The transcriber call
outcome is passed in as an `Except` (error = the exception's message).
The first component lists the arguments of `text_injector.inject_text`
calls made; the second lists the UI events reported. -/
def on_recording_complete (transcribe_outcome : Except (List Char) (List Char)) :
    List (List Char) × List UIEvent :=
  match transcribe_outcome with
  | .error e => ([], [.error ("Transcription error: ".data ++ e)])
  | .ok t0 =>
    let t1 := if t0 ≠ [] then normalize_text t0 else t0
    if t1 ≠ [] then ([t1], [.transcription_complete t1])
    else ([], [.error ("No text transcribed".data)])

end Dictation

namespace WhisperDictation

open Dictation (pyWs)

/-! ### Keyboard combo handler —
`whisper_dictation/platform/keyboard/pynput_listener.py`, `_KeyComboHandler` -/

/-- State of a `_KeyComboHandler`: the two parsed keys (opaque numeric
identifiers), the per-key pressed flags, the `combo_triggered` latch and
the `last_trigger_time` timestamp. -/
structure KeyComboHandler where
  key1 : Nat
  key2 : Nat
  key1_pressed : Bool
  key2_pressed : Bool
  combo_triggered : Bool
  last_trigger_time : Rat
deriving DecidableEq, Repr

/-- The handler's `debounce_delay` constant, 0.15 seconds. -/
def debounce_delay : Rat := 15 / 100

/-- Model of `_KeyComboHandler.__init__` after parsing the combination. -/
def KeyComboHandler.init (k1 k2 : Nat) : KeyComboHandler :=
  { key1 := k1, key2 := k2, key1_pressed := false, key2_pressed := false
    combo_triggered := false, last_trigger_time := 0 }

/-- The pressed-flag update at the top of `on_key_press`. -/
def KeyComboHandler.pressUpdate (s : KeyComboHandler) (key : Nat) : KeyComboHandler :=
  if key = s.key1 then { s with key1_pressed := true }
  else if key = s.key2 then { s with key2_pressed := true }
  else s

/-- Model of `_KeyComboHandler.on_key_press` handling a press of `key` at
wall-clock time `now` (`time.time()` is modelled as a rational passed in).
The boolean reports whether the callback was invoked. -/
def KeyComboHandler.on_key_press (s : KeyComboHandler) (key : Nat) (now : Rat) :
    KeyComboHandler × Bool :=
  let s1 := s.pressUpdate key
  if s1.key1_pressed && s1.key2_pressed && !s1.combo_triggered then
    if debounce_delay ≤ now - s1.last_trigger_time then
      ({ s1 with combo_triggered := true, last_trigger_time := now }, true)
    else (s1, false)
  else (s1, false)

/-- The pressed-flag update at the top of `on_key_release`. -/
def KeyComboHandler.releaseUpdate (s : KeyComboHandler) (key : Nat) : KeyComboHandler :=
  if key = s.key1 then { s with key1_pressed := false }
  else if key = s.key2 then { s with key2_pressed := false }
  else s

/-- Model of `_KeyComboHandler.on_key_release`: clear the released key's
flag, and when either tracked key is now up, reset the `combo_triggered`
latch and zero the `last_trigger_time` timestamp. -/
def KeyComboHandler.on_key_release (s : KeyComboHandler) (key : Nat) : KeyComboHandler :=
  let s1 := s.releaseUpdate key
  if !s1.key1_pressed || !s1.key2_pressed then
    { s1 with combo_triggered := false, last_trigger_time := 0 }
  else s1

/-- One keyboard event delivered by pynput: a press (with its wall-clock
handling time) or a release. -/
inductive KeyEvent where
  | press (key : Nat) (time : Rat) : KeyEvent
  | release (key : Nat) : KeyEvent
deriving DecidableEq, Repr

/-- Whether an event is a press. -/
def KeyEvent.isPress : KeyEvent → Bool
  | .press _ _ => true
  | .release _ => false

/-- Run the combo handler over an event sequence, collecting the
timestamps of the presses at which the callback fired, in order. -/
def runCombo (s : KeyComboHandler) : List KeyEvent → KeyComboHandler × List Rat
  | [] => (s, [])
  | .press k t :: es =>
    let r1 := s.on_key_press k t
    let r2 := runCombo r1.1 es
    (r2.1, if r1.2 then t :: r2.2 else r2.2)
  | .release k :: es => runCombo (s.on_key_release k) es

/-! ### Evdev combo listener —
`whisper_dictation/platform/keyboard/evdev_listener.py`, `_listen` -/

/-- Keystates of an evdev key event: down (1), up (0), hold/repeat (2). -/
inductive EvKeyState where
  | key_down : EvKeyState
  | key_up : EvKeyState
  | key_hold : EvKeyState
deriving DecidableEq, Repr

/-- The local state of the `_listen` loop for one device. -/
structure EvdevComboState where
  key1_pressed : Bool
  key2_pressed : Bool
  combo_active : Bool
deriving DecidableEq, Repr

/-- Initial local state of `_listen`. -/
def EvdevComboState.init : EvdevComboState :=
  { key1_pressed := false, key2_pressed := false, combo_active := false }

/-- One iteration of the `_listen` loop body for an `EV_KEY` event with
key code `keycode` and keystate `ks`; `k1set`/`k2set` are membership in
`key1_codes`/`key2_codes`.  The boolean reports a hotkey-callback
invocation. -/
def evdevStep (k1set k2set : Nat → Bool) (s : EvdevComboState) (keycode : Nat)
    (ks : EvKeyState) : EvdevComboState × Bool :=
  let s1 :=
    match ks with
    | .key_down =>
      if k1set keycode then { s with key1_pressed := true }
      else if k2set keycode then { s with key2_pressed := true }
      else s
    | .key_up =>
      if k1set keycode then { s with key1_pressed := false }
      else if k2set keycode then { s with key2_pressed := false }
      else s
    | .key_hold => s
  if s1.key1_pressed && s1.key2_pressed then
    if !s1.combo_active then ({ s1 with combo_active := true }, true)
    else (s1, false)
  else ({ s1 with combo_active := false }, false)

/-! ### Double right-command handler —
`whisper_dictation/platform/keyboard/pynput_listener.py`, `_DoubleCommandHandler` -/

/-- State of a `_DoubleCommandHandler`: the time of the last press of the
tracked key and the `is_recording` ("active") toggle. -/
structure DoubleCommandHandler where
  last_press_time : Rat
  is_recording : Bool
deriving DecidableEq, Repr

/-- Model of `_DoubleCommandHandler.__init__`. -/
def DoubleCommandHandler.init : DoubleCommandHandler :=
  { last_press_time := 0, is_recording := false }

/-- Model of `_DoubleCommandHandler.on_key_press` for a press at time
`now`; `is_cmd_r` says whether the pressed key equals `Key.cmd_r`.  The
boolean reports a callback invocation. -/
def DoubleCommandHandler.on_key_press (s : DoubleCommandHandler) (is_cmd_r : Bool)
    (now : Rat) : DoubleCommandHandler × Bool :=
  if is_cmd_r then
    if !s.is_recording then
      if now - s.last_press_time < 1 / 2 then
        ({ last_press_time := now, is_recording := true }, true)
      else ({ last_press_time := now, is_recording := false }, false)
    else ({ last_press_time := now, is_recording := false }, true)
  else (s, false)

/-- Model of `_DoubleCommandHandler.on_key_release`: `pass`. -/
def DoubleCommandHandler.on_key_release (s : DoubleCommandHandler) (key : Nat) :
    DoubleCommandHandler × Bool :=
  (s, false)

/-- One event for the double-command handler. -/
inductive DCEvent where
  | press (is_cmd_r : Bool) (time : Rat) : DCEvent
  | release (key : Nat) : DCEvent
deriving DecidableEq, Repr

/-- Run the double-command handler over an event sequence, collecting the
timestamps of presses at which the callback fired. -/
def runDC (s : DoubleCommandHandler) : List DCEvent → DoubleCommandHandler × List Rat
  | [] => (s, [])
  | .press k t :: es =>
    let r1 := s.on_key_press k t
    let r2 := runDC r1.1 es
    (r2.1, if r1.2 then t :: r2.2 else r2.2)
  | .release k :: es => runDC (s.on_key_release k).1 es

/-! ### Configuration — `whisper_dictation/config.py` -/

/-- Model of `PlatformInfo` from `whisper_dictation/platform/detection.py`. -/
structure PlatformInfo where
  os_name : String
  is_macos : Bool
  is_linux : Bool
  is_windows : Bool
  is_apple_silicon : Bool
  session_type : Option String
deriving DecidableEq, Repr

/-- Model of `DictationConfig` from `whisper_dictation/config.py`. -/
structure DictationConfig where
  model_name : String
  hotkey : String
  use_double_cmd : Bool
  languages : Option (List String)
  default_language : Option String
  max_recording_time : Option Rat
  sample_rate : Nat
  frames_per_buffer : Nat
  ui_mode : String
  platform : PlatformInfo
deriving DecidableEq, Repr

/-- Model of `create_default_config` from `whisper_dictation/config.py`.
The ambient dependencies `get_platform_info()` and
`importlib.util.find_spec("rumps")` are passed explicitly. -/
def create_default_config (platform : PlatformInfo) (rumps_available : Bool)
    (model : Option String) (hotkey : Option String) (use_double_cmd : Bool)
    (languages : Option (List String)) (max_time : Option Rat) (no_gui : Bool) :
    DictationConfig :=
  let model := model.getD ("large-v3-turbo")
  let hotkey := hotkey.getD (if platform.is_macos then "cmd_l+alt" else "ctrl+alt")
  let ui_mode : String :=
    if no_gui || !platform.is_macos then "cli"
    else if rumps_available then "gui" else "cli"
  let default_max_time : Option Rat :=
    match max_time with
    | none => none
    | some v => if platform.is_macos then some 30 else some v
  let default_language : Option String :=
    match languages with
    | some (l :: _) => some l
    | _ => none
  { model_name := model
    hotkey := hotkey
    use_double_cmd := use_double_cmd
    languages := languages
    default_language := default_language
    max_recording_time := default_max_time
    sample_rate := 16000
    frames_per_buffer := 1024
    ui_mode := ui_mode
    platform := platform }

end WhisperDictation

/-! ## Claim theorems -/

open Dictation WhisperDictation

/-- C1: whenever the transcription result, after the transcriber's own
trimming and the coordinator's normalization, is the empty string, the
coordinator's recording-completion handler reports the UI error event
"No text transcribed" and performs no text-injector call. -/
theorem c1_empty_transcription_reports_error (raw : List Char)
    (h : (if raw ≠ [] then normalize_text raw else raw) = []) :
    on_recording_complete (.ok raw) =
      ([], [.error ("No text transcribed".data)]) := by
  simp only [on_recording_complete]
  rw [h]
  simp

/-- C1 witness: the empty raw transcription result leads to the error
event and no injection. -/
theorem c1_empty_transcription_reports_error_witness :
    on_recording_complete (.ok []) =
      ([], [.error ("No text transcribed".data)]) :=
  c1_empty_transcription_reports_error [] (by decide)

/-- C2: a `start()` call while `recording` is true raises the synchronous
`RuntimeError("Recording is already in progress")` (before any I/O) and
leaves every field of the recorder — the stop flag, the thread handle,
the stored completion callback and the recording flag — unchanged. -/
theorem c2_second_start_rejected_state_untouched (r : Recorder) (cb th : Nat)
    (h : r.recording = true) :
    Recorder.start r cb th = (some ("Recording is already in progress".data), r)
    ∧ (Recorder.start r cb th).2.stop_flag = r.stop_flag
    ∧ (Recorder.start r cb th).2.record_thread = r.record_thread
    ∧ (Recorder.start r cb th).2.on_complete = r.on_complete
    ∧ (Recorder.start r cb th).2.recording = true := by
  unfold Recorder.start
  simp [h]

/-- C2 witness: a concrete in-progress recorder rejects a second start
with no state change. -/
theorem c2_second_start_rejected_state_untouched_witness :
    Recorder.start
        { sample_rate := 16000, frames_per_buffer := 1024, max_duration := none
          recording := true, stop_flag := false, record_thread := some 7
          on_complete := some 3 } 4 8 =
      (some ("Recording is already in progress".data),
        { sample_rate := 16000, frames_per_buffer := 1024, max_duration := none
          recording := true, stop_flag := false, record_thread := some 7
          on_complete := some 3 }) :=
  (c2_second_start_rejected_state_untouched _ 4 8 rfl).1

/-- C4: every buffer delivered to the recorder's completion callback is
non-empty, and — the device samples being signed 16-bit integers divided
by 32768 — every sample of the delivered buffer lies in [-1, 1]. -/
theorem c4_callback_buffer_nonempty_in_unit_interval (oc : Bool)
    (samples : List Int) (buf : List Rat)
    (hrange : ∀ v ∈ samples, -32768 ≤ v ∧ v ≤ 32767)
    (hdeliver : record_impl_delivery oc samples = some buf) :
    buf ≠ [] ∧ ∀ x ∈ buf, -1 ≤ x ∧ x ≤ 1 := by
  unfold record_impl_delivery at hdeliver
  by_cases hc : (oc && decide (0 < (samples.map int16ToFloat).length)) = true
  · rw [if_pos hc] at hdeliver
    obtain ⟨hoc, hlen⟩ := Bool.and_eq_true_iff.mp hc
    have hbuf : buf = samples.map int16ToFloat := by
      exact (Option.some_injective _ hdeliver).symm
    subst hbuf
    constructor
    · intro hnil
      rw [hnil] at hlen
      simp at hlen
    · intro x hx
      obtain ⟨v, hv, hvx⟩ := List.mem_map.mp hx
      obtain ⟨hlo, hhi⟩ := hrange v hv
      subst hvx
      unfold int16ToFloat
      constructor
      · rw [le_div_iff₀ (by norm_num : (0:ℚ) < 32768)]
        have : ((-32768 : Int) : ℚ) ≤ (v : ℚ) := by exact_mod_cast hlo
        push_cast at this ⊢
        linarith
      · rw [div_le_one (by norm_num : (0:ℚ) < 32768)]
        have : ((v : Int) : ℚ) ≤ ((32767 : Int) : ℚ) := by exact_mod_cast hhi
        push_cast at this ⊢
        linarith
  · rw [if_neg hc] at hdeliver
    exact absurd hdeliver (by simp)

/-- C4 witness: a one-sample capture of the most negative int16 value is
delivered as the non-empty buffer [-1], inside the unit interval. -/
theorem c4_callback_buffer_nonempty_in_unit_interval_witness :
    [(-1 : ℚ)] ≠ [] ∧ ∀ x ∈ [(-1 : ℚ)], -1 ≤ x ∧ x ≤ 1 :=
  c4_callback_buffer_nonempty_in_unit_interval true [-32768] [-1]
    (by intro v hv; simp at hv; omega)
    (by unfold record_impl_delivery int16ToFloat; norm_num)

/-- C7: the Qwen3 transcriber passes the mapped full language name to the
underlying model call — "es" is passed as "Spanish", a table entry is
passed as its mapped name — passes auto-detect (`None`) when the code is
absent or not in the fixed table, and returns the first result's text
trimmed, or the empty string when the model returns no results. -/
theorem c7_transcribe_language_mapping_and_result :
    qwen3_lang_name (some ("es")) = some ("Spanish")
    ∧ qwen3_lang_name none = none
    ∧ (∀ c : String, LANGUAGE_MAP.lookup c = none →
        qwen3_lang_name (some c) = none)
    ∧ (∀ c full : String, LANGUAGE_MAP.lookup c = some full →
        qwen3_lang_name (some c) = some full)
    ∧ (∀ model : Option String → List ASRResult, ∀ lang : Option String,
        Qwen3Transcriber.transcribe model lang =
          first_result_trimmed (model (qwen3_lang_name lang)))
    ∧ first_result_trimmed [] = []
    ∧ (∀ r rs, first_result_trimmed (r :: rs) = stripStr r.text) := by
  refine ⟨by decide, rfl, ?_, ?_, fun _ _ => rfl, rfl, fun _ _ => rfl⟩
  · intro c hc
    unfold qwen3_lang_name
    by_cases he : c = ""
    · simp [he]
    · simp [he, hc]
  · intro c full hc
    unfold qwen3_lang_name
    by_cases he : c = ""
    · exfalso
      rw [he] at hc
      have hz : LANGUAGE_MAP.lookup "" = none := by decide
      rw [hz] at hc
      exact Option.noConfusion hc
    · simp [he, hc]

/-- C7 witness: the mapped name for "es" together with discharged
instances of the conditional parts — an unknown code maps to auto-detect
and a table code maps to its full name. -/
theorem c7_transcribe_language_mapping_and_result_witness :
    qwen3_lang_name (some ("es")) = some ("Spanish")
    ∧ qwen3_lang_name (some ("xx")) = none
    ∧ qwen3_lang_name (some ("fr")) = some ("French") :=
  ⟨c7_transcribe_language_mapping_and_result.1,
   c7_transcribe_language_mapping_and_result.2.2.1 "xx" (by decide),
   c7_transcribe_language_mapping_and_result.2.2.2.1 "fr" "French" (by decide)⟩

/-- Helper: a press of the tracked key while inactive and inside the
0.5 s window fires and activates. -/
theorem dc_press_fire (s : DoubleCommandHandler) (t : Rat)
    (hrec : s.is_recording = false) (hin : t - s.last_press_time < 1 / 2) :
    s.on_key_press true t = ({ last_press_time := t, is_recording := true }, true) := by
  unfold DoubleCommandHandler.on_key_press
  simp [hrec]
  linarith

/-- Helper: a press of the tracked key while inactive and outside the
window records the time and does not fire. -/
theorem dc_press_skip (s : DoubleCommandHandler) (t : Rat)
    (hrec : s.is_recording = false) (hout : 1 / 2 ≤ t - s.last_press_time) :
    s.on_key_press true t =
      ({ last_press_time := t, is_recording := false }, false) := by
  unfold DoubleCommandHandler.on_key_press
  simp [hrec]
  linarith

/-- Helper: a press of the tracked key while active fires and clears the
toggle. -/
theorem dc_press_stop (s : DoubleCommandHandler) (t : Rat)
    (hrec : s.is_recording = true) :
    s.on_key_press true t =
      ({ last_press_time := t, is_recording := false }, true) := by
  unfold DoubleCommandHandler.on_key_press
  simp [hrec]

/-- C9: the double-tap detector fires and becomes active exactly when a
press arrives within the 0.5 s window of the previous press while not
active; two presses spaced beyond the window fire nothing; any press
while active fires and clears active; release events never change state
or fire. -/
theorem c9_double_tap_detector_behavior :
    (∀ (s : DoubleCommandHandler) (k : Nat),
        DoubleCommandHandler.on_key_release s k = (s, false))
    ∧ (∀ s : DoubleCommandHandler, ∀ t : Rat, s.is_recording = false →
        t - s.last_press_time < 1 / 2 →
        s.on_key_press true t =
          ({ last_press_time := t, is_recording := true }, true))
    ∧ (∀ s : DoubleCommandHandler, ∀ t : Rat, s.is_recording = false →
        1 / 2 ≤ t - s.last_press_time →
        s.on_key_press true t =
          ({ last_press_time := t, is_recording := false }, false))
    ∧ (∀ s : DoubleCommandHandler, ∀ t : Rat, s.is_recording = true →
        s.on_key_press true t =
          ({ last_press_time := t, is_recording := false }, true))
    ∧ (∀ t1 t2 : Rat, 1 / 2 ≤ t1 → t2 - t1 < 1 / 2 →
        runDC DoubleCommandHandler.init [.press true t1, .press true t2] =
          ({ last_press_time := t2, is_recording := true }, [t2]))
    ∧ (∀ t1 t2 : Rat, 1 / 2 ≤ t1 → 1 / 2 ≤ t2 - t1 →
        runDC DoubleCommandHandler.init [.press true t1, .press true t2] =
          ({ last_press_time := t2, is_recording := false }, [])) := by
  refine ⟨fun _ _ => rfl, dc_press_fire, dc_press_skip, dc_press_stop, ?_, ?_⟩
  · intro t1 t2 ht1 hwin
    have e1 : DoubleCommandHandler.init.on_key_press true t1 =
        ({ last_press_time := t1, is_recording := false }, false) := by
      apply dc_press_skip
      · rfl
      · unfold DoubleCommandHandler.init
        simp only
        linarith
    have e2 : DoubleCommandHandler.on_key_press
        { last_press_time := t1, is_recording := false } true t2 =
        ({ last_press_time := t2, is_recording := true }, true) := by
      apply dc_press_fire
      · rfl
      · simpa using hwin
    simp only [runDC, e1, e2]
    simp
  · intro t1 t2 ht1 hwin
    have e1 : DoubleCommandHandler.init.on_key_press true t1 =
        ({ last_press_time := t1, is_recording := false }, false) := by
      apply dc_press_skip
      · rfl
      · unfold DoubleCommandHandler.init
        simp only
        linarith
    have e2 : DoubleCommandHandler.on_key_press
        { last_press_time := t1, is_recording := false } true t2 =
        ({ last_press_time := t2, is_recording := false }, false) := by
      apply dc_press_skip
      · rfl
      · simpa using hwin
    simp only [runDC, e1, e2]
    simp

/-- C9 witness: concrete double-tap inside the window fires once and
activates; concrete spaced taps fire nothing; a press while active fires
and clears the toggle. -/
theorem c9_double_tap_detector_behavior_witness :
    runDC DoubleCommandHandler.init [.press true 100, .press true (1003 / 10)] =
      ({ last_press_time := 1003 / 10, is_recording := true }, [1003 / 10])
    ∧ runDC DoubleCommandHandler.init [.press true 100, .press true 101] =
      ({ last_press_time := 101, is_recording := false }, [])
    ∧ DoubleCommandHandler.on_key_press
        { last_press_time := 1003 / 10, is_recording := true } true 104 =
      ({ last_press_time := 104, is_recording := false }, true) :=
  ⟨c9_double_tap_detector_behavior.2.2.2.2.1 100 (1003 / 10) (by norm_num) (by norm_num),
   c9_double_tap_detector_behavior.2.2.2.2.2 100 101 (by norm_num) (by norm_num),
   c9_double_tap_detector_behavior.2.2.2.1 _ 104 rfl⟩

/-- C10: in the whisper generation's `create_default_config`, a supplied
non-None `max_time` on macOS is discarded in favour of 30.0 seconds; on
non-macOS platforms the supplied value is kept; `max_time = None` yields
unlimited recording on every platform. -/
theorem c10_macos_discards_supplied_max_time
    (platform : PlatformInfo) (rumps : Bool) (model hotkey : Option String)
    (udc : Bool) (langs : Option (List String)) (mt : Option Rat) (nogui : Bool) :
    (platform.is_macos = true → ∀ v : Rat, mt = some v →
      (create_default_config platform rumps model hotkey udc langs mt
        nogui).max_recording_time = some 30)
    ∧ (platform.is_macos = false →
      (create_default_config platform rumps model hotkey udc langs mt
        nogui).max_recording_time = mt)
    ∧ (mt = none →
      (create_default_config platform rumps model hotkey udc langs mt
        nogui).max_recording_time = none) := by
  refine ⟨?_, ?_, ?_⟩
  · intro hmac v hv
    subst hv
    simp [create_default_config, hmac]
  · intro hmac
    cases mt with
    | none => simp [create_default_config]
    | some v => simp [create_default_config, hmac]
  · intro hv
    subst hv
    simp [create_default_config]

/-- C10 witness: on a concrete macOS platform a supplied 600-second limit
becomes 30 seconds; on a concrete Linux platform it is kept; None stays
unlimited. -/
theorem c10_macos_discards_supplied_max_time_witness :
    (create_default_config
        { os_name := "Darwin", is_macos := true, is_linux := false
          is_windows := false, is_apple_silicon := true, session_type := none }
        false none none false none (some 600) false).max_recording_time = some 30
    ∧ (create_default_config
        { os_name := "Linux", is_macos := false, is_linux := true
          is_windows := false, is_apple_silicon := false
          session_type := some ("x11") }
        false none none false none (some 600) false).max_recording_time = some 600
    ∧ (create_default_config
        { os_name := "Darwin", is_macos := true, is_linux := false
          is_windows := false, is_apple_silicon := true, session_type := none }
        false none none false none none false).max_recording_time = none :=
  ⟨(c10_macos_discards_supplied_max_time _ false none none false none _ false).1
      rfl 600 rfl,
   (c10_macos_discards_supplied_max_time _ false none none false none _ false).2.1
      rfl,
   (c10_macos_discards_supplied_max_time _ false none none false none _ false).2.2
      rfl⟩

/-- Helper: the pressed-flag update touches neither the latch, the
timestamp, nor the configured keys. -/
theorem pressUpdate_fields (s : KeyComboHandler) (k : Nat) :
    (s.pressUpdate k).combo_triggered = s.combo_triggered
    ∧ (s.pressUpdate k).last_trigger_time = s.last_trigger_time
    ∧ (s.pressUpdate k).key1 = s.key1
    ∧ (s.pressUpdate k).key2 = s.key2 := by
  unfold KeyComboHandler.pressUpdate
  split_ifs <;> simp

/-- Helper: while the combo latch is set, a press updates the flags and
never fires. -/
theorem on_key_press_triggered_nofire (s : KeyComboHandler) (k : Nat) (t : Rat)
    (h : s.combo_triggered = true) :
    s.on_key_press k t = (s.pressUpdate k, false) := by
  have ht := (pressUpdate_fields s k).1
  simp only [KeyComboHandler.on_key_press]
  rw [ht, h]
  simp

/-- Helper: from a latched state, any sequence of press events produces no
callback invocation and keeps the latch set. -/
theorem runCombo_pressonly_triggered (es : List KeyEvent) (s : KeyComboHandler)
    (hs : s.combo_triggered = true) (hp : ∀ e ∈ es, e.isPress = true) :
    (runCombo s es).2 = [] ∧ (runCombo s es).1.combo_triggered = true := by
  induction es generalizing s with
  | nil => exact ⟨rfl, hs⟩
  | cons e es ih =>
    cases e with
    | press k t =>
      have he := on_key_press_triggered_nofire s k t hs
      have hs1 : (s.pressUpdate k).combo_triggered = true := by
        rw [(pressUpdate_fields s k).1]
        exact hs
      have hrest := ih (s.pressUpdate k) hs1 (fun e he => hp e (List.mem_cons_of_mem _ he))
      simp only [runCombo, he]
      simpa using hrest
    | release k =>
      exact absurd (hp (.release k) (List.mem_cons_self _ _)) (by simp [KeyEvent.isPress])

/-- Helper: `runCombo` over an appended event list threads the state and
concatenates the fire lists. -/
theorem runCombo_append (l1 l2 : List KeyEvent) (s : KeyComboHandler) :
    runCombo s (l1 ++ l2) =
      ((runCombo (runCombo s l1).1 l2).1,
        (runCombo s l1).2 ++ (runCombo (runCombo s l1).1 l2).2) := by
  induction l1 generalizing s with
  | nil => simp [runCombo]
  | cons e es ih =>
    cases e with
    | press k t =>
      simp only [List.cons_append, List.append_eq, runCombo]
      rw [ih]
      by_cases hf : (s.on_key_press k t).2 = true
      · simp [hf]
      · simp [hf]
    | release k =>
      simp only [List.cons_append, List.append_eq, runCombo]
      rw [ih]

/-- Helper: from the idle state, pressing key1 then key2 fires exactly on
the second press and latches the combo. -/
theorem combo_two_press_fires (k1 k2 : Nat) (t1 t2 : Rat) (hne : k1 ≠ k2)
    (ht : debounce_delay ≤ t2) :
    runCombo (KeyComboHandler.init k1 k2)
        [.press k1 t1, .press k2 t2] =
      ({ key1 := k1, key2 := k2, key1_pressed := true, key2_pressed := true
         combo_triggered := true, last_trigger_time := t2 }, [t2]) := by
  have e1 : (KeyComboHandler.init k1 k2).on_key_press k1 t1 =
      ({ key1 := k1, key2 := k2, key1_pressed := true, key2_pressed := false
         combo_triggered := false, last_trigger_time := 0 }, false) := by
    simp [KeyComboHandler.on_key_press, KeyComboHandler.pressUpdate,
      KeyComboHandler.init]
  have e2 : KeyComboHandler.on_key_press
      { key1 := k1, key2 := k2, key1_pressed := true, key2_pressed := false
        combo_triggered := false, last_trigger_time := 0 } k2 t2 =
      ({ key1 := k1, key2 := k2, key1_pressed := true, key2_pressed := true
         combo_triggered := true, last_trigger_time := t2 }, true) := by
    simp [KeyComboHandler.on_key_press, KeyComboHandler.pressUpdate,
      Ne.symm hne]
    exact ht
  simp only [runCombo, e1, e2]
  simp

/-- Helper: from the idle state, pressing key2 then key1 also fires
exactly on the second press. -/
theorem combo_two_press_fires_rev (k1 k2 : Nat) (t1 t2 : Rat) (hne : k1 ≠ k2)
    (ht : debounce_delay ≤ t2) :
    runCombo (KeyComboHandler.init k1 k2)
        [.press k2 t1, .press k1 t2] =
      ({ key1 := k1, key2 := k2, key1_pressed := true, key2_pressed := true
         combo_triggered := true, last_trigger_time := t2 }, [t2]) := by
  have e1 : (KeyComboHandler.init k1 k2).on_key_press k2 t1 =
      ({ key1 := k1, key2 := k2, key1_pressed := false, key2_pressed := true
         combo_triggered := false, last_trigger_time := 0 }, false) := by
    simp [KeyComboHandler.on_key_press, KeyComboHandler.pressUpdate,
      KeyComboHandler.init, Ne.symm hne]
  have e2 : KeyComboHandler.on_key_press
      { key1 := k1, key2 := k2, key1_pressed := false, key2_pressed := true
        combo_triggered := false, last_trigger_time := 0 } k1 t2 =
      ({ key1 := k1, key2 := k2, key1_pressed := true, key2_pressed := true
         combo_triggered := true, last_trigger_time := t2 }, true) := by
    simp [KeyComboHandler.on_key_press, KeyComboHandler.pressUpdate]
    exact ht
  simp only [runCombo, e1, e2]
  simp

/-- C5: the two-key combo detector fires exactly once per press-both
gesture.  From idle, pressing the two tracked keys in either order fires
exactly once (on the second press, at any wall-clock time past the
debounce interval since epoch), and no subsequent press event — repeats
of held keys included — fires again while the latch is set, i.e. until a
tracked key is released; the same holds for the evdev listener's loop. -/
theorem c5_combo_fires_once_per_gesture :
    (∀ (s : KeyComboHandler) (k : Nat) (t : Rat), s.combo_triggered = true →
        (s.on_key_press k t).2 = false)
    ∧ (∀ (k1 k2 : Nat) (t1 t2 : Rat) (es : List KeyEvent), k1 ≠ k2 →
        debounce_delay ≤ t2 → (∀ e ∈ es, e.isPress = true) →
        (runCombo (KeyComboHandler.init k1 k2)
          (.press k1 t1 :: .press k2 t2 :: es)).2 = [t2])
    ∧ (∀ (k1 k2 : Nat) (t1 t2 : Rat) (es : List KeyEvent), k1 ≠ k2 →
        debounce_delay ≤ t2 → (∀ e ∈ es, e.isPress = true) →
        (runCombo (KeyComboHandler.init k1 k2)
          (.press k2 t1 :: .press k1 t2 :: es)).2 = [t2])
    ∧ (∀ (k1set k2set : Nat → Bool) (s : EvdevComboState) (kc : Nat)
          (ks : EvKeyState), s.combo_active = true → s.key1_pressed = true →
        s.key2_pressed = true → ks ≠ EvKeyState.key_up →
        (evdevStep k1set k2set s kc ks).2 = false)
    ∧ (∀ (k1set k2set : Nat → Bool) (kc1 kc2 : Nat), k1set kc1 = true →
        k2set kc2 = true → k1set kc2 = false →
        (evdevStep k1set k2set EvdevComboState.init kc1 .key_down).2 = false
        ∧ (evdevStep k1set k2set
            (evdevStep k1set k2set EvdevComboState.init kc1 .key_down).1
            kc2 .key_down).2 = true)
    ∧ (∀ (k1set k2set : Nat → Bool) (kc1 kc2 : Nat), k1set kc1 = true →
        k2set kc2 = true → k1set kc2 = false →
        (evdevStep k1set k2set EvdevComboState.init kc2 .key_down).2 = false
        ∧ (evdevStep k1set k2set
            (evdevStep k1set k2set EvdevComboState.init kc2 .key_down).1
            kc1 .key_down).2 = true) := by
  refine ⟨?_, ?_, ?_, ?_, ?_, ?_⟩
  · intro s k t h
    rw [on_key_press_triggered_nofire s k t h]
  · intro k1 k2 t1 t2 es hne ht hp
    have h2 := combo_two_press_fires k1 k2 t1 t2 hne ht
    have happ := runCombo_append [.press k1 t1, .press k2 t2] es
      (KeyComboHandler.init k1 k2)
    rw [h2] at happ
    have hrest := runCombo_pressonly_triggered es
      { key1 := k1, key2 := k2, key1_pressed := true, key2_pressed := true
        combo_triggered := true, last_trigger_time := t2 } rfl hp
    simp only [List.cons_append, List.nil_append] at happ
    rw [happ]
    simp [hrest.1]
  · intro k1 k2 t1 t2 es hne ht hp
    have h2 := combo_two_press_fires_rev k1 k2 t1 t2 hne ht
    have happ := runCombo_append [.press k2 t1, .press k1 t2] es
      (KeyComboHandler.init k1 k2)
    rw [h2] at happ
    have hrest := runCombo_pressonly_triggered es
      { key1 := k1, key2 := k2, key1_pressed := true, key2_pressed := true
        combo_triggered := true, last_trigger_time := t2 } rfl hp
    simp only [List.cons_append, List.nil_append] at happ
    rw [happ]
    simp [hrest.1]
  · intro k1set k2set s kc ks hact h1 h2 hks
    cases ks with
    | key_down =>
      unfold evdevStep
      split_ifs <;> simp_all
    | key_up => exact absurd rfl hks
    | key_hold =>
      unfold evdevStep
      simp [h1, h2, hact]
  · intro k1set k2set kc1 kc2 h1 h2 h12
    constructor
    · simp [evdevStep, EvdevComboState.init, h1]
    · simp [evdevStep, EvdevComboState.init, h1, h2, h12]
  · intro k1set k2set kc1 kc2 h1 h2 h12
    constructor
    · simp [evdevStep, EvdevComboState.init, h2, h12]
    · simp [evdevStep, EvdevComboState.init, h1, h2, h12]

/-- C5 witness: a concrete gesture — press 1, press 2, repeat presses of
both held keys — fires exactly once, at the second press; and the evdev
loop fires exactly on the second of two concrete down events. -/
theorem c5_combo_fires_once_per_gesture_witness :
    (runCombo (KeyComboHandler.init 1 2)
      [.press 1 100, .press 2 101, .press 1 102, .press 2 103]).2 = [101]
    ∧ (evdevStep (· = 10) (· = 20)
        (evdevStep (· = 10) (· = 20) EvdevComboState.init 10 .key_down).1
        20 .key_down).2 = true :=
  ⟨c5_combo_fires_once_per_gesture.2.1 1 2 100 101
      [.press 1 102, .press 2 103] (by decide) (by norm_num [debounce_delay])
      (by intro e he; simp at he; rcases he with h | h <;> simp [h, KeyEvent.isPress]),
   (c5_combo_fires_once_per_gesture.2.2.2.2.1 (· = 10) (· = 20) 10 20
      (by decide) (by decide) (by decide)).2⟩

/-- Helper: the release flag update touches neither the latch nor the
timestamp. -/
theorem releaseUpdate_fields (s : KeyComboHandler) (k : Nat) :
    (s.releaseUpdate k).combo_triggered = s.combo_triggered
    ∧ (s.releaseUpdate k).last_trigger_time = s.last_trigger_time := by
  unfold KeyComboHandler.releaseUpdate
  split_ifs <;> simp

/-- Helper: the zero-timestamp invariant — an unlatched state carries the
timestamp 0 — is preserved by a press. -/
theorem on_key_press_zero_inv (s : KeyComboHandler) (k : Nat) (t : Rat)
    (h : s.combo_triggered = false → s.last_trigger_time = 0) :
    (s.on_key_press k t).1.combo_triggered = false →
      (s.on_key_press k t).1.last_trigger_time = 0 := by
  have hf := pressUpdate_fields s k
  simp only [KeyComboHandler.on_key_press]
  split_ifs with h1 h2
  · intro hcon
    exact absurd hcon (by simp)
  · intro _
    show (s.pressUpdate k).last_trigger_time = 0
    rw [hf.2.1]
    apply h
    rw [← hf.1]
    rcases Bool.and_eq_true_iff.mp h1 with ⟨hab, hc⟩
    simpa using hc
  · intro hcon
    show (s.pressUpdate k).last_trigger_time = 0
    rw [hf.2.1]
    apply h
    rw [← hf.1]
    simpa using hcon

/-- Helper: the zero-timestamp invariant is preserved by a release; in
fact a release that leaves a tracked key up re-establishes it outright. -/
theorem on_key_release_zero_inv (s : KeyComboHandler) (k : Nat)
    (h : s.combo_triggered = false → s.last_trigger_time = 0) :
    (s.on_key_release k).combo_triggered = false →
      (s.on_key_release k).last_trigger_time = 0 := by
  have hf := releaseUpdate_fields s k
  simp only [KeyComboHandler.on_key_release]
  split_ifs with h1
  · intro _
    rfl
  · intro hcon
    show (s.releaseUpdate k).last_trigger_time = 0
    rw [hf.2]
    apply h
    rw [← hf.1]
    simpa using hcon

/-- Helper: the zero-timestamp invariant holds in every state reachable
from a given state satisfying it. -/
theorem runCombo_zero_inv (es : List KeyEvent) (s : KeyComboHandler)
    (h : s.combo_triggered = false → s.last_trigger_time = 0) :
    (runCombo s es).1.combo_triggered = false →
      (runCombo s es).1.last_trigger_time = 0 := by
  induction es generalizing s with
  | nil => exact h
  | cons e es ih =>
    cases e with
    | press k t =>
      have hstep := on_key_press_zero_inv s k t h
      simp only [runCombo]
      by_cases hfire : (s.on_key_press k t).2 = true
      · exact ih (s.on_key_press k t).1 hstep
      · exact ih (s.on_key_press k t).1 hstep
    | release k =>
      exact ih (s.on_key_release k) (on_key_release_zero_inv s k h)

/-- C6 counterexample: a concrete event sequence — fire, release one key,
re-press it — produces two callback invocations 0.02 seconds apart,
less than the 0.15-second debounce interval. -/
theorem c6_debounce_counterexample :
    (runCombo (KeyComboHandler.init 1 2)
      [.press 1 100, .press 2 (10001 / 100), .release 1,
       .press 1 (10003 / 100)]).2 = [10001 / 100, 10003 / 100]
    ∧ (10003 / 100 : Rat) - 10001 / 100 < debounce_delay := by
  constructor
  · norm_num [runCombo, KeyComboHandler.on_key_press, KeyComboHandler.on_key_release,
      KeyComboHandler.pressUpdate, KeyComboHandler.releaseUpdate, KeyComboHandler.init,
      debounce_delay]
  · norm_num [debounce_delay]

/-- C6 amended: the debounce comparison rejects a fire only when less
than 0.15 s have passed since the stored `last_trigger_time`; but every
tracked-key release zeroes that timestamp, so in every reachable
unlatched state the stored timestamp is 0 and the debounce never rejects
a fire attempted at wall-clock time at least 0.15: two callback
invocations may therefore be separated by less than the debounce
interval (an intervening release re-arms both the latch and the
debounce). -/
theorem c6_amended_debounce_never_rejects :
    (∀ (k1 k2 : Nat) (es : List KeyEvent),
        (runCombo (KeyComboHandler.init k1 k2) es).1.combo_triggered = false →
        (runCombo (KeyComboHandler.init k1 k2) es).1.last_trigger_time = 0)
    ∧ (∀ (s : KeyComboHandler) (k : Nat) (t : Rat),
        s.combo_triggered = false → s.last_trigger_time = 0 →
        debounce_delay ≤ t →
        (s.on_key_press k t).2 =
          ((s.pressUpdate k).key1_pressed && (s.pressUpdate k).key2_pressed)) := by
  constructor
  · intro k1 k2 es
    exact runCombo_zero_inv es (KeyComboHandler.init k1 k2) (fun _ => rfl)
  · intro s k t htrig hzero ht
    have hf := pressUpdate_fields s k
    simp only [KeyComboHandler.on_key_press]
    have hc : (s.pressUpdate k).combo_triggered = false := by
      rw [hf.1]
      exact htrig
    have hz : (s.pressUpdate k).last_trigger_time = 0 := by
      rw [hf.2.1]
      exact hzero
    by_cases hb : ((s.pressUpdate k).key1_pressed &&
        (s.pressUpdate k).key2_pressed) = true
    · rw [if_pos (by simp [hb, hc]), if_pos (by rw [hz, sub_zero]; exact ht)]
      simp [hb]
    · rw [if_neg (by simp only [hc, Bool.not_false, Bool.and_true]; exact hb)]
      simp only [Bool.not_eq_true] at hb
      simp [hb]

/-- C6 amended witness: in a concrete reachable unlatched state with one
key held, a press of the other key at time 1 (past 0.15 since epoch)
fires — the debounce does not reject it — and the reachable-state
invariant instantiated at a concrete event list. -/
theorem c6_amended_debounce_never_rejects_witness :
    (KeyComboHandler.on_key_press
      { key1 := 1, key2 := 2, key1_pressed := true, key2_pressed := false
        combo_triggered := false, last_trigger_time := 0 } 2 1).2 = true
    ∧ (runCombo (KeyComboHandler.init 1 2)
        [.press 1 100, .press 2 101, .release 2]).1.last_trigger_time = 0 := by
  constructor
  · have h := c6_amended_debounce_never_rejects.2
      { key1 := 1, key2 := 2, key1_pressed := true, key2_pressed := false
        combo_triggered := false, last_trigger_time := 0 } 2 1 rfl rfl
      (by norm_num [debounce_delay])
    rw [h]
    decide
  · apply c6_amended_debounce_never_rejects.1 1 2
      [.press 1 100, .press 2 101, .release 2]
    norm_num [runCombo, KeyComboHandler.on_key_press, KeyComboHandler.on_key_release,
      KeyComboHandler.pressUpdate, KeyComboHandler.releaseUpdate, KeyComboHandler.init,
      debounce_delay]

/-- Helper: whether a string starts with a space. -/
def headIsSpace (l : List Char) : Bool :=
  match l with
  | [] => false
  | c :: _ => c = ' '

/-- Helper: one-step unfolding of `collapseSpaces`. -/
theorem collapseSpaces_cons (c : Char) (A : List Char) :
    collapseSpaces (c :: A) =
      if c = ' ' && headIsSpace A then collapseSpaces A
      else c :: collapseSpaces A := by
  cases A with
  | nil => simp [collapseSpaces, headIsSpace]
  | cons a A => simp [collapseSpaces, headIsSpace]

/-- Helper: under `collapseSpaces`, a leading run of n+1 spaces behaves
like a single leading space. -/
theorem collapseSpaces_replicate (n : Nat) (r : List Char) :
    collapseSpaces (List.replicate (n + 1) ' ' ++ r) =
      collapseSpaces (' ' :: r) := by
  induction n with
  | zero => rfl
  | succ m ih =>
    have hhead : headIsSpace (List.replicate (m + 1) ' ' ++ r) = true := by
      simp [List.replicate, headIsSpace]
    calc collapseSpaces (List.replicate (m + 1 + 1) ' ' ++ r)
        = collapseSpaces (' ' :: (List.replicate (m + 1) ' ' ++ r)) := by
          simp [List.replicate]
      _ = collapseSpaces (List.replicate (m + 1) ' ' ++ r) := by
          rw [collapseSpaces_cons, if_pos (by simp [hhead])]
      _ = collapseSpaces (' ' :: r) := ih

/-- Helper: `collapseSpaces` is congruent under a common prefix for
suffixes with equal collapse and equal space-headedness. -/
theorem collapseSpaces_congr_append (l : List Char) {A B : List Char}
    (hc : collapseSpaces A = collapseSpaces B)
    (hh : headIsSpace A = headIsSpace B) :
    collapseSpaces (l ++ A) = collapseSpaces (l ++ B) := by
  induction l with
  | nil => exact hc
  | cons c l ih =>
    have hhead : headIsSpace (l ++ A) = headIsSpace (l ++ B) := by
      cases l with
      | nil => exact hh
      | cons d l => simp [headIsSpace]
    simp only [List.cons_append]
    rw [collapseSpaces_cons, collapseSpaces_cons, hhead, ih]

/-- Helper: under `collapseSpaces`, an interior run of n+1 spaces behaves
like a single space. -/
theorem collapseSpaces_run (n : Nat) (l r : List Char) :
    collapseSpaces (l ++ List.replicate (n + 1) ' ' ++ r) =
      collapseSpaces (l ++ ' ' :: r) := by
  rw [List.append_assoc]
  exact collapseSpaces_congr_append l (collapseSpaces_replicate n r)
    (by cases n <;> simp [List.replicate, headIsSpace])

/-- Helper: a string of whitespace strips to nothing. -/
theorem stripStr_allws {x : List Char} (h : ∀ c ∈ x, pyWs c = true) :
    stripStr x = [] := by
  unfold stripStr
  rw [List.dropWhile_eq_nil_iff.mpr h]
  simp

/-- Helper: an all-whitespace suffix does not affect `stripStr` when the
prefix contains a non-whitespace character. -/
theorem stripStr_append_allws {l W : List Char}
    (hl : ¬∀ c ∈ l, pyWs c = true) (hW : ∀ c ∈ W, pyWs c = true) :
    stripStr (l ++ W) = stripStr l := by
  unfold stripStr
  have hd : l.dropWhile pyWs ≠ [] := fun hnil => hl (List.dropWhile_eq_nil_iff.mp hnil)
  rw [List.dropWhile_append, if_neg (by simpa using hd)]
  rw [List.reverse_append]
  rw [List.dropWhile_append_of_pos (by intro c hcm; exact hW c (List.mem_reverse.mp hcm))]

/-- Helper: an all-whitespace prefix does not affect the whitespace-drop
from the left. -/
theorem dropWhile_allws_append {l : List Char} (X : List Char)
    (hl : ∀ c ∈ l, pyWs c = true) :
    (l ++ X).dropWhile pyWs = X.dropWhile pyWs :=
  List.dropWhile_append_of_pos hl

/-- Helper: `collapseSpaces` after `stripStr` identifies an interior run
of n+1 spaces with a single space. -/
theorem collapseSpaces_stripStr_run (n : Nat) (l r : List Char) :
    collapseSpaces (stripStr (l ++ List.replicate (n + 1) ' ' ++ r)) =
      collapseSpaces (stripStr (l ++ ' ' :: r)) := by
  have hrep : ∀ c ∈ List.replicate (n + 1) ' ', pyWs c = true := by
    intro c hc
    rw [List.eq_of_mem_replicate hc]
    decide
  by_cases hr : ∀ c ∈ r, pyWs c = true
  · by_cases hl : ∀ c ∈ l, pyWs c = true
    · rw [stripStr_allws, stripStr_allws]
      · intro c hc
        simp only [List.mem_append, List.mem_cons] at hc
        rcases hc with h | h | h
        · exact hl c h
        · rw [h]; decide
        · exact hr c h
      · intro c hc
        simp only [List.mem_append] at hc
        rcases hc with (h | h) | h
        · exact hl c h
        · exact hrep c h
        · exact hr c h
    · rw [List.append_assoc]
      rw [stripStr_append_allws hl, stripStr_append_allws hl]
      · intro c hc
        simp only [List.mem_cons] at hc
        rcases hc with h | h
        · rw [h]; decide
        · exact hr c h
      · intro c hc
        simp only [List.mem_append] at hc
        rcases hc with h | h
        · exact hrep c h
        · exact hr c h
  · by_cases hl : ∀ c ∈ l, pyWs c = true
    · have e1 : (l ++ List.replicate (n + 1) ' ' ++ r).dropWhile pyWs =
          r.dropWhile pyWs := by
        rw [List.append_assoc, dropWhile_allws_append _ hl,
          dropWhile_allws_append _ hrep]
      have e2 : (l ++ ' ' :: r).dropWhile pyWs = r.dropWhile pyWs := by
        rw [dropWhile_allws_append _ hl]
        rw [show (' ' :: r) = [' '] ++ r from rfl]
        rw [dropWhile_allws_append _ (by intro c hc; simp at hc; rw [hc]; decide)]
      unfold stripStr
      rw [e1, e2]
    · have hdl : l.dropWhile pyWs ≠ [] :=
        fun hnil => hl (List.dropWhile_eq_nil_iff.mp hnil)
      have e1 : (l ++ List.replicate (n + 1) ' ' ++ r).dropWhile pyWs =
          l.dropWhile pyWs ++ (List.replicate (n + 1) ' ' ++ r) := by
        rw [List.append_assoc, List.dropWhile_append, if_neg (by simpa using hdl)]
      have e2 : (l ++ ' ' :: r).dropWhile pyWs =
          l.dropWhile pyWs ++ ' ' :: r := by
        rw [List.dropWhile_append, if_neg (by simpa using hdl)]
      have hdr : r.reverse.dropWhile pyWs ≠ [] := by
        intro hnil
        exact hr (fun c hc =>
          List.dropWhile_eq_nil_iff.mp hnil c (List.mem_reverse.mpr hc))
      unfold stripStr
      rw [e1, e2]
      have e3 : (l.dropWhile pyWs ++ (List.replicate (n + 1) ' ' ++ r)).reverse.dropWhile pyWs =
          r.reverse.dropWhile pyWs ++
            ((List.replicate (n + 1) ' ').reverse ++ (l.dropWhile pyWs).reverse) := by
        rw [List.reverse_append, List.reverse_append, List.append_assoc]
        rw [List.dropWhile_append, if_neg (by simpa using hdr)]
      have e4 : (l.dropWhile pyWs ++ ' ' :: r).reverse.dropWhile pyWs =
          r.reverse.dropWhile pyWs ++ ([' '] ++ (l.dropWhile pyWs).reverse) := by
        rw [show (' ' :: r) = [' '] ++ r from rfl]
        rw [List.reverse_append, List.reverse_append, List.append_assoc]
        rw [List.dropWhile_append, if_neg (by simpa using hdr)]
        simp
      rw [e3, e4]
      simp only [List.reverse_append, List.reverse_reverse, List.reverse_replicate,
        List.reverse_cons, List.reverse_nil, List.nil_append, List.singleton_append,
        List.append_assoc]
      rw [← List.append_assoc]
      exact collapseSpaces_run n _ _

/-- C8 counterexample: the input has a run of two spaces, yet the
normalized output contains no space at all — the run abuts a period, so
after collapsing, the space-before-punctuation substitution deletes the
remaining space entirely.  The claim "collapses that run to exactly one
space in the output" is false as stated. -/
theorem c8_space_run_counterexample :
    normalize_text ['a', ' ', ' ', '.'] = ['a', '.']
    ∧ ' ' ∉ normalize_text ['a', ' ', ' ', '.'] := by
  decide

/-- C8 amended: the space-collapsing substitution rewrites every run of
N ≥ 1 consecutive spaces to exactly one space, and the whole normalizer
treats a run of N spaces exactly like a single space; the single
resulting space may however be deleted entirely by the later
strip/punctuation/bracket rules, so the output need not retain a space. -/
theorem c8_amended_space_run_behaves_like_single (n : Nat) (l r : List Char)
    (hn : 1 ≤ n) :
    collapseSpaces (l ++ List.replicate n ' ' ++ r) =
      collapseSpaces (l ++ ' ' :: r)
    ∧ normalize_text (l ++ List.replicate n ' ' ++ r) =
      normalize_text (l ++ ' ' :: r) := by
  obtain ⟨m, rfl⟩ : ∃ m, n = m + 1 := ⟨n - 1, by omega⟩
  constructor
  · exact collapseSpaces_run m l r
  · have hne1 : l ++ List.replicate (m + 1) ' ' ++ r ≠ [] := by
      simp [List.replicate]
    have hne2 : l ++ ' ' :: r ≠ [] := by simp
    unfold normalize_text
    rw [if_neg hne1, if_neg hne2, collapseSpaces_stripStr_run]

/-- C8 amended witness: a concrete three-space run between words behaves
exactly like a single space under both the collapse step and the whole
normalizer. -/
theorem c8_amended_space_run_behaves_like_single_witness :
    collapseSpaces (['a'] ++ List.replicate 3 ' ' ++ ['b']) =
      collapseSpaces (['a'] ++ ' ' :: ['b'])
    ∧ normalize_text (['a'] ++ List.replicate 3 ' ' ++ ['b']) =
      normalize_text (['a'] ++ ' ' :: ['b']) :=
  c8_amended_space_run_behaves_like_single 3 ['a'] ['b'] (by norm_num)

/-! ### Idempotence of `normalize_text`

The proof characterizes the output of the normalization pipeline by local
window invariants (conditions on adjacent pairs and triples of
characters) and shows that on any string satisfying them the pipeline is
the identity. -/

/-- Helper: whitespace characters are not punctuation. -/
theorem ws_not_punct {c : Char} (h : pyWs c = true) : punctChar c = false := by
  simp only [pyWs, Bool.or_eq_true, decide_eq_true_eq] at h
  obtain ((((h | h) | h) | h) | h) | h := h <;> subst h <;> decide

/-- Helper: whitespace characters are not closers. -/
theorem ws_not_closer {c : Char} (h : pyWs c = true) : closerChar c = false := by
  simp only [pyWs, Bool.or_eq_true, decide_eq_true_eq] at h
  obtain ((((h | h) | h) | h) | h) | h := h <;> subst h <;> decide

/-- Helper: opener characters are not whitespace. -/
theorem opener_not_ws {c : Char} (h : openerChar c = true) : pyWs c = false := by
  simp only [openerChar, Bool.or_eq_true, decide_eq_true_eq] at h
  obtain ((h | h) | h) | h := h <;> subst h <;> decide

/-- Helper: closer characters are not whitespace. -/
theorem closer_not_ws {c : Char} (h : closerChar c = true) : pyWs c = false := by
  simp only [closerChar, Bool.or_eq_true, decide_eq_true_eq] at h
  obtain ((h | h) | h) | h := h <;> subst h <;> decide

/-- Helper: punctuation characters are not whitespace. -/
theorem punct_not_ws {c : Char} (h : punctChar c = true) : pyWs c = false := by
  simp only [punctChar, Bool.or_eq_true, decide_eq_true_eq] at h
  obtain ((((h | h) | h) | h) | h) | h := h <;> subst h <;> decide

/-- Helper: closer characters are not punctuation. -/
theorem closer_not_punct {c : Char} (h : closerChar c = true) :
    punctChar c = false := by
  simp only [closerChar, Bool.or_eq_true, decide_eq_true_eq] at h
  obtain ((h | h) | h) | h := h <;> subst h <;> decide

/-- Helper: punctuation characters are not the space character. -/
theorem punct_not_space {c : Char} (h : punctChar c = true) : c ≠ ' ' := by
  intro heq
  subst heq
  exact absurd h (by decide)

/-- Helper: opener characters are not the space character. -/
theorem opener_not_space {c : Char} (h : openerChar c = true) : c ≠ ' ' := by
  intro heq
  subst heq
  exact absurd h (by decide)

/-- Helper: closer characters are not the space character. -/
theorem closer_not_space {c : Char} (h : closerChar c = true) : c ≠ ' ' := by
  intro heq
  subst heq
  exact absurd h (by decide)

/-- A predicate on all adjacent pairs of a string. -/
def pairsOK (R : Char → Char → Prop) : List Char → Prop
  | a :: b :: l => R a b ∧ pairsOK R (b :: l)
  | _ => True

/-- A predicate on all adjacent triples of a string. -/
def triplesOK (R : Char → Char → Char → Prop) : List Char → Prop
  | a :: b :: c :: l => R a b c ∧ triplesOK R (b :: c :: l)
  | _ => True

/-- Helper: pair windows restrict to the tail. -/
theorem pairsOK_tail {R : Char → Char → Prop} {a : Char} {l : List Char}
    (h : pairsOK R (a :: l)) : pairsOK R l := by
  cases l with
  | nil => trivial
  | cons b l => exact h.2

/-- Helper: the head pair of a pair-window predicate. -/
theorem pairsOK_head {R : Char → Char → Prop} {a b : Char} {l : List Char}
    (h : pairsOK R (a :: b :: l)) : R a b := h.1

/-- Helper: pair windows weaken pointwise. -/
theorem pairsOK_mono {R S : Char → Char → Prop} (hRS : ∀ a b, R a b → S a b) :
    ∀ {l : List Char}, pairsOK R l → pairsOK S l
  | [], _ => trivial
  | [_], _ => trivial
  | _ :: _ :: _, h => ⟨hRS _ _ h.1, pairsOK_mono hRS h.2⟩

/-- Helper: triple windows restrict to the tail. -/
theorem triplesOK_tail {R : Char → Char → Char → Prop} {a : Char} {l : List Char}
    (h : triplesOK R (a :: l)) : triplesOK R l := by
  match l with
  | [] => trivial
  | [_] => trivial
  | _ :: _ :: _ => exact h.2

/-- Helper: the head triple of a triple-window predicate. -/
theorem triplesOK_head {R : Char → Char → Char → Prop} {a b c : Char}
    {l : List Char} (h : triplesOK R (a :: b :: c :: l)) : R a b c := h.1

/-- The head of the string is not whitespace (trivial for empty). -/
def headNonWs (l : List Char) : Prop :=
  match l with
  | [] => True
  | c :: _ => pyWs c = false

/-- The last character of the string is not whitespace (trivial for
empty). -/
def lastNonWs (l : List Char) : Prop :=
  match l.getLast? with
  | none => True
  | some c => pyWs c = false

/-- The first non-whitespace character, if any. -/
def firstNonWs (l : List Char) : Option Char :=
  (l.dropWhile pyWs).head?

/-- Whether the first non-whitespace character exists and lies in the
class `tgt`. -/
def nextNonWsTgt (tgt : Char → Bool) (l : List Char) : Bool :=
  match firstNonWs l with
  | none => false
  | some c => tgt c

/-- Helper: `firstNonWs` ignores a whitespace head. -/
theorem firstNonWs_cons_ws {c : Char} (cs : List Char) (h : pyWs c = true) :
    firstNonWs (c :: cs) = firstNonWs cs := by
  simp [firstNonWs, List.dropWhile_cons, h]

/-- Helper: `firstNonWs` at a non-whitespace head. -/
theorem firstNonWs_cons_nonws {c : Char} (cs : List Char) (h : pyWs c = false) :
    firstNonWs (c :: cs) = some c := by
  simp [firstNonWs, List.dropWhile_cons, h]

/-- Helper: the first non-whitespace character is not whitespace. -/
theorem firstNonWs_not_ws {l : List Char} {c : Char} (h : firstNonWs l = some c) :
    pyWs c = false := by
  unfold firstNonWs at h
  have := List.head?_dropWhile_not pyWs l
  rw [h] at this
  exact this

/-- Helper: `nextNonWsTgt` ignores a whitespace head. -/
theorem nextNonWsTgt_cons_ws (tgt : Char → Bool) {c : Char} (cs : List Char)
    (h : pyWs c = true) : nextNonWsTgt tgt (c :: cs) = nextNonWsTgt tgt cs := by
  simp [nextNonWsTgt, firstNonWs_cons_ws cs h]

/-- Helper: `nextNonWsTgt` at a non-whitespace head. -/
theorem nextNonWsTgt_cons_nonws (tgt : Char → Bool) {c : Char} (cs : List Char)
    (h : pyWs c = false) : nextNonWsTgt tgt (c :: cs) = tgt c := by
  simp [nextNonWsTgt, firstNonWs_cons_nonws cs h]

/-- Helper: introduction for pair windows at a cons. -/
theorem pairsOK_cons {R : Char → Char → Prop} {c : Char} {T : List Char}
    (h1 : ∀ x, T.head? = some x → R c x) (h2 : pairsOK R T) :
    pairsOK R (c :: T) := by
  cases T with
  | nil => trivial
  | cons x T => exact ⟨h1 x rfl, h2⟩

/-- Helper: elimination of the head pair via `head?`. -/
theorem pairsOK_headq {R : Char → Char → Prop} {c : Char} {l : List Char}
    (h : pairsOK R (c :: l)) : ∀ x, l.head? = some x → R c x := by
  intro x hx
  cases l with
  | nil => exact absurd hx (by simp)
  | cons b l =>
    simp only [List.head?_cons, Option.some.injEq] at hx
    subst hx
    exact h.1

/-- Helper: introduction for triple windows at a cons. -/
theorem triplesOK_cons {R : Char → Char → Char → Prop} {c : Char} {T : List Char}
    (h1 : ∀ x y T2, T = x :: y :: T2 → R c x y) (h2 : triplesOK R T) :
    triplesOK R (c :: T) := by
  match T with
  | [] => trivial
  | [x] => trivial
  | x :: y :: T2 => exact ⟨h1 x y T2 rfl, h2⟩

/-- Helper: elimination of the head triple. -/
theorem triplesOK_head2 {R : Char → Char → Char → Prop} {c : Char} {l : List Char}
    (h : triplesOK R (c :: l)) : ∀ x y T2, l = x :: y :: T2 → R c x y := by
  intro x y T2 hx
  subst hx
  exact h.1

/-- Helper: the boolean component of `rmWsBeforeAux` says whether the
nearest non-whitespace character is in the class. -/
theorem rmWsBeforeAux_bool (tgt : Char → Bool) :
    ∀ l : List Char, (rmWsBeforeAux tgt l).2 = nextNonWsTgt tgt l := by
  intro l
  induction l with
  | nil => simp [rmWsBeforeAux, nextNonWsTgt, firstNonWs]
  | cons c cs ih =>
    by_cases hc : pyWs c = true
    · simp only [rmWsBeforeAux, hc, if_true]
      rw [ih, nextNonWsTgt_cons_ws tgt cs hc]
    · simp only [rmWsBeforeAux, hc, if_false, Bool.false_eq_true]
      rw [nextNonWsTgt_cons_nonws tgt cs (by simpa using hc)]

/-- Helper: `rmWsBefore` keeps a non-whitespace head. -/
theorem rmWsBefore_cons_nonws (tgt : Char → Bool) {c : Char} (cs : List Char)
    (h : pyWs c = false) :
    rmWsBefore tgt (c :: cs) = c :: rmWsBefore tgt cs := by
  simp [rmWsBefore, rmWsBeforeAux, h]

/-- Helper: `rmWsBefore` keeps a whitespace head whose nearest
non-whitespace successor is not in the class. -/
theorem rmWsBefore_cons_ws_keep (tgt : Char → Bool) {c : Char} (cs : List Char)
    (h : pyWs c = true) (h2 : nextNonWsTgt tgt cs = false) :
    rmWsBefore tgt (c :: cs) = c :: rmWsBefore tgt cs := by
  simp [rmWsBefore, rmWsBeforeAux, h, rmWsBeforeAux_bool, h2]

/-- Helper: `rmWsBefore` drops a whitespace head whose nearest
non-whitespace successor is in the class. -/
theorem rmWsBefore_cons_ws_drop (tgt : Char → Bool) {c : Char} (cs : List Char)
    (h : pyWs c = true) (h2 : nextNonWsTgt tgt cs = true) :
    rmWsBefore tgt (c :: cs) = rmWsBefore tgt cs := by
  simp [rmWsBefore, rmWsBeforeAux, h, rmWsBeforeAux_bool, h2]

/-- Helper: when the nearest non-whitespace character is not in the
class, `rmWsBefore` preserves the head. -/
theorem rmWsBefore_headq (tgt : Char → Bool) :
    ∀ l : List Char, nextNonWsTgt tgt l = false →
      (rmWsBefore tgt l).head? = l.head? := by
  intro l hl
  cases l with
  | nil => rfl
  | cons c cs =>
    by_cases hc : pyWs c = true
    · rw [rmWsBefore_cons_ws_keep tgt cs hc
        (by rw [← nextNonWsTgt_cons_ws tgt cs hc]; exact hl)]
      rfl
    · rw [rmWsBefore_cons_nonws tgt cs (by simpa using hc)]
      rfl

/-- Helper: when the nearest non-whitespace character is in the class,
`rmWsBefore` brings it to the head. -/
theorem rmWsBefore_head_tgt (tgt : Char → Bool) :
    ∀ l : List Char, nextNonWsTgt tgt l = true →
      ∃ t T, rmWsBefore tgt l = t :: T ∧ tgt t = true ∧ pyWs t = false ∧
        firstNonWs l = some t := by
  intro l
  induction l with
  | nil => intro h; exact absurd h (by simp [nextNonWsTgt, firstNonWs])
  | cons c cs ih =>
    intro h
    by_cases hc : pyWs c = true
    · rw [nextNonWsTgt_cons_ws tgt cs hc] at h
      rw [rmWsBefore_cons_ws_drop tgt cs hc h, firstNonWs_cons_ws cs hc]
      exact ih h
    · replace hc : pyWs c = false := by simpa using hc
      rw [nextNonWsTgt_cons_nonws tgt cs hc] at h
      exact ⟨c, rmWsBefore tgt cs, rmWsBefore_cons_nonws tgt cs hc, h, hc,
        firstNonWs_cons_nonws cs hc⟩

/-- Helper: `rmWsBefore` preserves the first non-whitespace character. -/
theorem rmWsBefore_firstNonWs (tgt : Char → Bool) :
    ∀ l : List Char, firstNonWs (rmWsBefore tgt l) = firstNonWs l := by
  intro l
  induction l with
  | nil => rfl
  | cons c cs ih =>
    by_cases hc : pyWs c = true
    · by_cases h2 : nextNonWsTgt tgt cs = true
      · rw [rmWsBefore_cons_ws_drop tgt cs hc h2, firstNonWs_cons_ws cs hc, ih]
      · rw [rmWsBefore_cons_ws_keep tgt cs hc (by simpa using h2),
          firstNonWs_cons_ws _ hc, firstNonWs_cons_ws cs hc, ih]
    · replace hc : pyWs c = false := by simpa using hc
      rw [rmWsBefore_cons_nonws tgt cs hc, firstNonWs_cons_nonws _ hc,
        firstNonWs_cons_nonws cs hc]

/-- Helper: `getLast?` of a cons with non-empty tail. -/
theorem getLastq_cons_ne {c : Char} {T : List Char} (h : T ≠ []) :
    (c :: T).getLast? = T.getLast? := by
  cases T with
  | nil => exact absurd rfl h
  | cons b T => exact List.getLast?_cons_cons

/-- Helper: `lastNonWs` descends into a non-empty tail. -/
theorem lastNonWs_tail {c : Char} {cs : List Char} (h : lastNonWs (c :: cs))
    (hne : cs ≠ []) : lastNonWs cs := by
  unfold lastNonWs at h ⊢
  rw [getLastq_cons_ne hne] at h
  exact h

/-- Helper: a list with a whitespace-free last character (and the
convention for empty lists) — `rmWsBefore` preserves `getLast?`. -/
theorem rmWsBefore_getLastq (tgt : Char → Bool) :
    ∀ l : List Char, lastNonWs l →
      (rmWsBefore tgt l).getLast? = l.getLast? := by
  intro l
  induction l with
  | nil => intro _; rfl
  | cons c cs ih =>
    intro hlast
    cases hcs : cs with
    | nil =>
      subst hcs
      have hc : pyWs c = false := by
        unfold lastNonWs at hlast
        simpa using hlast
      rw [rmWsBefore_cons_nonws tgt [] hc]
      rfl
    | cons d cs2 =>
      have hne : cs ≠ [] := by rw [hcs]; simp
      have hlast2 : lastNonWs cs := lastNonWs_tail hlast hne
      have htail := ih hlast2
      have hTne : rmWsBefore tgt cs ≠ [] := by
        intro hnil
        rw [hnil] at htail
        have : cs.getLast? = none := htail.symm
        rw [List.getLast?_eq_none_iff] at this
        exact hne this
      rw [← hcs] at *
      by_cases hc : pyWs c = true
      · by_cases h2 : nextNonWsTgt tgt cs = true
        · rw [rmWsBefore_cons_ws_drop tgt cs hc h2, htail,
            getLastq_cons_ne hne]
        · rw [rmWsBefore_cons_ws_keep tgt cs hc (by simpa using h2),
            getLastq_cons_ne hTne, htail, getLastq_cons_ne hne]
      · rw [rmWsBefore_cons_nonws tgt cs (by simpa using hc),
          getLastq_cons_ne hTne, htail, getLastq_cons_ne hne]

/-- Helper: the output of `rmWsBefore` has no whitespace character
immediately before a class character. -/
theorem rmWsBefore_no_ws_before (tgt : Char → Bool)
    (hwt : ∀ c, pyWs c = true → tgt c = false) :
    ∀ l : List Char,
      pairsOK (fun a b => pyWs a = true → tgt b = false) (rmWsBefore tgt l) := by
  intro l
  induction l with
  | nil => trivial
  | cons c cs ih =>
    by_cases hc : pyWs c = true
    · by_cases h2 : nextNonWsTgt tgt cs = true
      · rw [rmWsBefore_cons_ws_drop tgt cs hc h2]
        exact ih
      · replace h2 : nextNonWsTgt tgt cs = false := by simpa using h2
        rw [rmWsBefore_cons_ws_keep tgt cs hc h2]
        refine pairsOK_cons ?_ ih
        intro x hx
        intro _
        rw [rmWsBefore_headq tgt cs h2] at hx
        by_cases hxw : pyWs x = true
        · exact hwt x hxw
        · cases cs with
          | nil => exact absurd hx (by simp)
          | cons e cs2 =>
            simp only [List.head?_cons, Option.some.injEq] at hx
            subst hx
            rw [nextNonWsTgt_cons_nonws tgt cs2 (by simpa using hxw)] at h2
            exact h2
    · replace hc : pyWs c = false := by simpa using hc
      rw [rmWsBefore_cons_nonws tgt cs hc]
      refine pairsOK_cons ?_ ih
      intro x _ hcon
      rw [hc] at hcon
      exact absurd hcon (by simp)

/-- Helper: `rmWsBefore` preserves any adjacent-pair invariant that holds
of all pairs ending in a class character. -/
theorem rmWsBefore_pairs (tgt : Char → Bool) {R : Char → Char → Prop}
    (hR : ∀ a b, tgt b = true → R a b) :
    ∀ l : List Char, pairsOK R l → pairsOK R (rmWsBefore tgt l) := by
  intro l
  induction l with
  | nil => intro _; trivial
  | cons c cs ih =>
    intro h
    have htail := ih (pairsOK_tail h)
    have hhead : ∀ x, (rmWsBefore tgt cs).head? = some x → R c x := by
      intro x hx
      by_cases h2 : nextNonWsTgt tgt cs = true
      · obtain ⟨t, T, hT, htgt, _, _⟩ := rmWsBefore_head_tgt tgt cs h2
        rw [hT] at hx
        simp only [List.head?_cons, Option.some.injEq] at hx
        exact hR c x (hx ▸ htgt)
      · replace h2 : nextNonWsTgt tgt cs = false := by simpa using h2
        rw [rmWsBefore_headq tgt cs h2] at hx
        exact pairsOK_headq h x hx
    by_cases hc : pyWs c = true
    · by_cases h2 : nextNonWsTgt tgt cs = true
      · rw [rmWsBefore_cons_ws_drop tgt cs hc h2]
        exact htail
      · rw [rmWsBefore_cons_ws_keep tgt cs hc (by simpa using h2)]
        exact pairsOK_cons hhead htail
    · rw [rmWsBefore_cons_nonws tgt cs (by simpa using hc)]
      exact pairsOK_cons hhead htail

/-- Helper: `rmWsBefore` preserves any adjacent-triple invariant that is
vacuous at non-whitespace middles: a surviving whitespace character keeps
both its original neighbours. -/
theorem rmWsBefore_triples (tgt : Char → Bool)
    {R3 : Char → Char → Char → Prop}
    (H2 : ∀ a b c, pyWs b = false → R3 a b c) :
    ∀ l : List Char, triplesOK R3 l → triplesOK R3 (rmWsBefore tgt l) := by
  intro l
  induction l with
  | nil => intro _; trivial
  | cons c cs ih =>
    intro h
    have htail := ih (triplesOK_tail h)
    have hhead : ∀ x y T2, rmWsBefore tgt cs = x :: y :: T2 → R3 c x y := by
      intro x y T2 hT
      by_cases hxw : pyWs x = true
      · have h2 : nextNonWsTgt tgt cs = false := by
          by_contra h2
          replace h2 : nextNonWsTgt tgt cs = true := by simpa using h2
          obtain ⟨t, T, hT2, _, htws, _⟩ := rmWsBefore_head_tgt tgt cs h2
          rw [hT] at hT2
          simp only [List.cons.injEq] at hT2
          rw [← hT2.1] at htws
          rw [htws] at hxw
          exact absurd hxw (by simp)
        have hxh : cs.head? = some x := by
          rw [← rmWsBefore_headq tgt cs h2, hT]
          rfl
        cases cs with
        | nil => exact absurd hxh (by simp)
        | cons x0 cs2 =>
          simp only [List.head?_cons, Option.some.injEq] at hxh
          subst hxh
          have h2b : nextNonWsTgt tgt cs2 = false := by
            rw [← nextNonWsTgt_cons_ws tgt cs2 hxw]
            exact h2
          rw [rmWsBefore_cons_ws_keep tgt cs2 hxw h2b] at hT
          simp only [List.cons.injEq] at hT
          have hT2 : rmWsBefore tgt cs2 = y :: T2 := hT.2
          have hyh : cs2.head? = some y := by
            rw [← rmWsBefore_headq tgt cs2 h2b, hT2]
            rfl
          cases cs2 with
          | nil => exact absurd hyh (by simp)
          | cons y0 cs3 =>
            simp only [List.head?_cons, Option.some.injEq] at hyh
            subst hyh
            exact h.1
      · exact H2 c x y (by simpa using hxw)
    by_cases hc : pyWs c = true
    · by_cases h2 : nextNonWsTgt tgt cs = true
      · rw [rmWsBefore_cons_ws_drop tgt cs hc h2]
        exact htail
      · rw [rmWsBefore_cons_ws_keep tgt cs hc (by simpa using h2)]
        exact triplesOK_cons hhead htail
    · rw [rmWsBefore_cons_nonws tgt cs (by simpa using hc)]
      exact triplesOK_cons hhead htail

/-- No two adjacent space characters. -/
def noTwoSpaces (l : List Char) : Prop :=
  pairsOK (fun a b => ¬(a = ' ' ∧ b = ' ')) l

/-- Helper: `rmWsBefore` preserves a non-whitespace head. -/
theorem rmWsBefore_headNonWs (tgt : Char → Bool) {l : List Char}
    (h : headNonWs l) : headNonWs (rmWsBefore tgt l) := by
  cases l with
  | nil => trivial
  | cons c cs =>
    rw [rmWsBefore_cons_nonws tgt cs h]
    exact h

/-- Helper: `collapseSpaces` preserves the head. -/
theorem collapseSpaces_headq : ∀ l : List Char,
    (collapseSpaces l).head? = l.head?
  | [] => rfl
  | [c] => rfl
  | c :: d :: cs => by
    by_cases h : (c = ' ' && d = ' ') = true
    · simp only [collapseSpaces, h, if_true]
      rw [collapseSpaces_headq (d :: cs)]
      obtain ⟨hc, hd⟩ := Bool.and_eq_true_iff.mp h
      simp only [decide_eq_true_eq] at hc hd
      rw [hc, hd]
      rfl
    · simp only [collapseSpaces, h, if_false, Bool.false_eq_true]
      rfl

/-- Helper: `collapseSpaces` maps non-empty lists to non-empty lists. -/
theorem collapseSpaces_ne : ∀ l : List Char, l ≠ [] → collapseSpaces l ≠ []
  | [], h => absurd rfl h
  | [c], _ => by simp [collapseSpaces]
  | c :: d :: cs, _ => by
    by_cases h : (c = ' ' && d = ' ') = true
    · simp only [collapseSpaces, h, if_true]
      exact collapseSpaces_ne (d :: cs) (by simp)
    · simp only [collapseSpaces, h, if_false, Bool.false_eq_true]
      simp

/-- Helper: `collapseSpaces` preserves `getLast?`. -/
theorem collapseSpaces_getLastq : ∀ l : List Char,
    (collapseSpaces l).getLast? = l.getLast?
  | [] => rfl
  | [c] => rfl
  | c :: d :: cs => by
    by_cases h : (c = ' ' && d = ' ') = true
    · simp only [collapseSpaces, h, if_true]
      rw [collapseSpaces_getLastq (d :: cs)]
      exact (List.getLast?_cons_cons).symm
    · simp only [collapseSpaces, h, if_false, Bool.false_eq_true]
      rw [getLastq_cons_ne (collapseSpaces_ne (d :: cs) (by simp)),
        collapseSpaces_getLastq (d :: cs)]
      exact (List.getLast?_cons_cons).symm

/-- Helper: the output of `collapseSpaces` has no two adjacent spaces. -/
theorem collapseSpaces_noTwoSpaces : ∀ l : List Char,
    noTwoSpaces (collapseSpaces l)
  | [] => trivial
  | [c] => trivial
  | c :: d :: cs => by
    by_cases h : (c = ' ' && d = ' ') = true
    · simp only [collapseSpaces, h, if_true]
      exact collapseSpaces_noTwoSpaces (d :: cs)
    · simp only [collapseSpaces, h, if_false, Bool.false_eq_true]
      refine pairsOK_cons ?_ (collapseSpaces_noTwoSpaces (d :: cs))
      intro x hx
      rw [collapseSpaces_headq (d :: cs)] at hx
      simp only [List.head?_cons, Option.some.injEq] at hx
      subst hx
      intro hcon
      rw [Bool.and_eq_true_iff] at h
      simp only [decide_eq_true_eq] at h
      exact h ⟨hcon.1, hcon.2⟩

/-- Helper: `collapseSpaces` fixes strings without adjacent spaces. -/
theorem collapseSpaces_fix : ∀ l : List Char,
    noTwoSpaces l → collapseSpaces l = l
  | [], _ => rfl
  | [c], _ => rfl
  | c :: d :: cs, h => by
    have hb : (c = ' ' && d = ' ') = false := by
      rw [Bool.and_eq_false_iff]
      by_contra hcon
      push_neg at hcon
      obtain ⟨h1, h2⟩ := hcon
      simp only [Bool.not_eq_false, decide_eq_true_eq] at h1 h2
      exact h.1 ⟨h1, h2⟩
    simp only [collapseSpaces, hb, if_false, Bool.false_eq_true]
    rw [collapseSpaces_fix (d :: cs) h.2]

/-- Helper: `collapseSpaces` preserves the first non-whitespace
character. -/
theorem collapseSpaces_firstNonWs : ∀ l : List Char,
    firstNonWs (collapseSpaces l) = firstNonWs l
  | [] => rfl
  | [c] => rfl
  | c :: d :: cs => by
    by_cases h : (c = ' ' && d = ' ') = true
    · obtain ⟨hc, hd⟩ := Bool.and_eq_true_iff.mp h
      simp only [decide_eq_true_eq] at hc hd
      simp only [collapseSpaces, h, if_true]
      rw [collapseSpaces_firstNonWs (d :: cs), hc,
        firstNonWs_cons_ws (d :: cs) (by decide)]
    · simp only [collapseSpaces, h, if_false, Bool.false_eq_true]
      by_cases hcw : pyWs c = true
      · rw [firstNonWs_cons_ws _ hcw, firstNonWs_cons_ws _ hcw,
          collapseSpaces_firstNonWs (d :: cs)]
      · replace hcw : pyWs c = false := by simpa using hcw
        rw [firstNonWs_cons_nonws _ hcw, firstNonWs_cons_nonws _ hcw]

/-- Helper: a non-whitespace character is not the space character. -/
theorem nonws_ne_space {c : Char} (h : pyWs c = false) : c ≠ ' ' := by
  intro hc
  subst hc
  exact absurd h (by decide)

/-- Helper: `insSpaceAfter` at a non-class head. -/
theorem insSpaceAfter_cons_nontgt (tgt : Char → Bool) {c : Char}
    (cs : List Char) (h : tgt c = false) :
    insSpaceAfter tgt (c :: cs) = c :: insSpaceAfter tgt cs := by
  cases cs with
  | nil => rfl
  | cons d cs => simp [insSpaceAfter, h]

/-- Helper: `insSpaceAfter` at a class head followed by whitespace. -/
theorem insSpaceAfter_cons_tgt_ws (tgt : Char → Bool) {c d : Char}
    (cs : List Char) (hd : pyWs d = true) :
    insSpaceAfter tgt (c :: d :: cs) = c :: insSpaceAfter tgt (d :: cs) := by
  simp [insSpaceAfter, hd]

/-- Helper: `insSpaceAfter` at a class head followed by non-whitespace:
a space is inserted. -/
theorem insSpaceAfter_cons_tgt_nonws (tgt : Char → Bool) {c d : Char}
    (cs : List Char) (hc : tgt c = true) (hd : pyWs d = false) :
    insSpaceAfter tgt (c :: d :: cs) =
      c :: ' ' :: insSpaceAfter tgt (d :: cs) := by
  simp [insSpaceAfter, hc, hd]

/-- Helper: one-step shape of `insSpaceAfter` on two or more characters:
the head is kept, with or without an inserted space. -/
theorem insSpaceAfter_cons_shape (tgt : Char → Bool) (c d : Char)
    (cs : List Char) :
    insSpaceAfter tgt (c :: d :: cs) = c :: insSpaceAfter tgt (d :: cs) ∨
      insSpaceAfter tgt (c :: d :: cs) =
        c :: ' ' :: insSpaceAfter tgt (d :: cs) := by
  by_cases hc : tgt c = true
  · by_cases hd : pyWs d = true
    · exact Or.inl (insSpaceAfter_cons_tgt_ws tgt cs hd)
    · exact Or.inr (insSpaceAfter_cons_tgt_nonws tgt cs hc (by simpa using hd))
  · exact Or.inl (insSpaceAfter_cons_nontgt tgt (d :: cs) (by simpa using hc))

/-- Helper: `insSpaceAfter` preserves the head. -/
theorem insSpaceAfter_headq (tgt : Char → Bool) :
    ∀ l : List Char, (insSpaceAfter tgt l).head? = l.head? := by
  intro l
  match l with
  | [] => rfl
  | [c] => rfl
  | c :: d :: cs =>
    by_cases h : (tgt c && !pyWs d) = true
    · simp [insSpaceAfter, h]
    · simp only [insSpaceAfter, h, if_false, Bool.false_eq_true]
      rfl

/-- Helper: `insSpaceAfter` maps non-empty lists to non-empty lists. -/
theorem insSpaceAfter_ne (tgt : Char → Bool) :
    ∀ l : List Char, l ≠ [] → insSpaceAfter tgt l ≠ [] := by
  intro l hl
  cases l with
  | nil => exact absurd rfl hl
  | cons c cs =>
    intro hcon
    have := insSpaceAfter_headq tgt (c :: cs)
    rw [hcon] at this
    exact absurd this.symm (by simp)

/-- Helper: `insSpaceAfter` preserves `getLast?`. -/
theorem insSpaceAfter_getLastq (tgt : Char → Bool) : ∀ l : List Char,
    (insSpaceAfter tgt l).getLast? = l.getLast?
  | [] => rfl
  | [c] => rfl
  | c :: d :: cs => by
    have hne : insSpaceAfter tgt (d :: cs) ≠ [] :=
      insSpaceAfter_ne tgt (d :: cs) (by simp)
    have ih := insSpaceAfter_getLastq tgt (d :: cs)
    rcases insSpaceAfter_cons_shape tgt c d cs with h2 | h2 <;> rw [h2]
    · rw [getLastq_cons_ne hne, ih]
      exact (List.getLast?_cons_cons).symm
    · rw [getLastq_cons_ne (by simp), getLastq_cons_ne hne, ih]
      exact (List.getLast?_cons_cons).symm

/-- Helper: `insSpaceAfter` preserves the first non-whitespace character
when the class contains no whitespace. -/
theorem insSpaceAfter_firstNonWs (tgt : Char → Bool)
    (htw : ∀ c, tgt c = true → pyWs c = false) : ∀ l : List Char,
    firstNonWs (insSpaceAfter tgt l) = firstNonWs l
  | [] => rfl
  | [c] => rfl
  | c :: d :: cs => by
    have ih := insSpaceAfter_firstNonWs tgt htw (d :: cs)
    by_cases hcw : pyWs c = true
    · have hct : tgt c = false := by
        by_contra hcon
        replace hcon : tgt c = true := by simpa using hcon
        rw [htw c hcon] at hcw
        exact absurd hcw (by simp)
      rw [insSpaceAfter_cons_nontgt tgt (d :: cs) hct,
        firstNonWs_cons_ws _ hcw, firstNonWs_cons_ws _ hcw, ih]
    · replace hcw : pyWs c = false := by simpa using hcw
      by_cases h : (tgt c && !pyWs d) = true
      · simp only [insSpaceAfter, h, if_true]
        rw [firstNonWs_cons_nonws _ hcw, firstNonWs_cons_nonws _ hcw]
      · simp only [insSpaceAfter, h, if_false, Bool.false_eq_true]
        rw [firstNonWs_cons_nonws _ hcw, firstNonWs_cons_nonws _ hcw]

/-- The whitespace-before-punctuation window invariant: a whitespace
character directly before punctuation is a single space with a
punctuation predecessor. -/
def g3rel (a b c : Char) : Prop :=
  pyWs b = true → punctChar c = true → b = ' ' ∧ punctChar a = true

/-- Helper: every class character in the output of `insSpaceAfter` is
followed by whitespace or the end of the string. -/
theorem insSpaceAfter_tgt_before_ws (tgt : Char → Bool)
    (htw : ∀ c, tgt c = true → pyWs c = false) : ∀ l : List Char,
    pairsOK (fun a b => tgt a = true → pyWs b = true) (insSpaceAfter tgt l)
  | [] => trivial
  | [c] => trivial
  | c :: d :: cs => by
    have ih := insSpaceAfter_tgt_before_ws tgt htw (d :: cs)
    by_cases hc : tgt c = true
    · by_cases hd : pyWs d = true
      · rw [insSpaceAfter_cons_tgt_ws tgt cs hd]
        refine pairsOK_cons ?_ ih
        intro x hx _
        rw [insSpaceAfter_headq tgt (d :: cs)] at hx
        simp only [List.head?_cons, Option.some.injEq] at hx
        rw [← hx]
        exact hd
      · rw [insSpaceAfter_cons_tgt_nonws tgt cs hc (by simpa using hd)]
        refine pairsOK_cons ?_ (pairsOK_cons ?_ ih)
        · intro x hx _
          simp only [List.head?_cons, Option.some.injEq] at hx
          rw [← hx]
          decide
        · intro x hx hcon
          have : pyWs ' ' = true := by decide
          rw [htw ' ' hcon] at this
          exact absurd this (by simp)
    · rw [insSpaceAfter_cons_nontgt tgt (d :: cs) (by simpa using hc)]
      refine pairsOK_cons ?_ ih
      intro x _ hcon
      rw [hcon] at hc
      exact absurd rfl hc

/-- Helper: when the input has no whitespace directly before a
punctuation character, the output of inserting spaces after punctuation
satisfies the whitespace-before-punctuation window invariant: the only
whitespace-before-punctuation adjacencies are the inserted spaces. -/
theorem insSpaceAfter_g3 : ∀ l : List Char,
    pairsOK (fun a b => pyWs a = true → punctChar b = false) l →
    triplesOK g3rel (insSpaceAfter punctChar l)
  | [], _ => trivial
  | [c], _ => trivial
  | c :: d :: cs, h => by
    have ih := insSpaceAfter_g3 (d :: cs) (pairsOK_tail h)
    by_cases hc : punctChar c = true
    · by_cases hd : pyWs d = true
      · rw [insSpaceAfter_cons_tgt_ws punctChar cs hd]
        refine triplesOK_cons ?_ ih
        intro x y T2 hT
        have hx : x = d := by
          have := insSpaceAfter_headq punctChar (d :: cs)
          rw [hT] at this
          simpa using this
        rw [hx]
        intro _ hy
        have hdy : cs.head? = some y := by
          have h2 : insSpaceAfter punctChar (d :: cs) =
              d :: insSpaceAfter punctChar cs :=
            insSpaceAfter_cons_nontgt punctChar cs (by rw [ws_not_punct hd])
          rw [h2] at hT
          simp only [List.cons.injEq] at hT
          rw [← insSpaceAfter_headq punctChar cs, hT.2]
          rfl
        exact absurd hy (by
          rw [pairsOK_headq (pairsOK_tail h) y hdy hd]
          simp)
      · rw [insSpaceAfter_cons_tgt_nonws punctChar cs hc (by simpa using hd)]
        refine triplesOK_cons ?_ (triplesOK_cons ?_ ih)
        · intro x y T2 hT
          simp only [List.cons.injEq] at hT
          have hx : x = ' ' := hT.1.symm
          have hy : y = d := by
            have := insSpaceAfter_headq punctChar (d :: cs)
            rw [hT.2] at this
            simpa using this
          rw [hx, hy]
          intro _ _
          exact ⟨rfl, hc⟩
        · intro x y T2 hT
          have hx : x = d := by
            have := insSpaceAfter_headq punctChar (d :: cs)
            rw [hT] at this
            simpa using this
          rw [hx]
          intro hdw
          rw [hdw] at hd
          exact absurd hd (by simp)
    · rw [insSpaceAfter_cons_nontgt punctChar (d :: cs) (by simpa using hc)]
      refine triplesOK_cons ?_ ih
      intro x y T2 hT
      have hx : x = d := by
        have := insSpaceAfter_headq punctChar (d :: cs)
        rw [hT] at this
        simpa using this
      rw [hx]
      by_cases hdw : pyWs d = true
      · intro _ hy
        have hdy : cs.head? = some y := by
          have h2 : insSpaceAfter punctChar (d :: cs) =
              d :: insSpaceAfter punctChar cs :=
            insSpaceAfter_cons_nontgt punctChar cs (by rw [ws_not_punct hdw])
          rw [h2] at hT
          simp only [List.cons.injEq] at hT
          rw [← insSpaceAfter_headq punctChar cs, hT.2]
          rfl
        exact absurd hy (by
          rw [pairsOK_headq (pairsOK_tail h) y hdy hdw]
          simp)
      · intro hcon
        rw [hcon] at hdw
        exact absurd rfl hdw

/-- Helper: `insSpaceAfter` preserves the absence of adjacent spaces when
the class contains no whitespace. -/
theorem insSpaceAfter_noTwoSpaces (tgt : Char → Bool)
    (htw : ∀ c, tgt c = true → pyWs c = false) : ∀ l : List Char,
    noTwoSpaces l → noTwoSpaces (insSpaceAfter tgt l)
  | [], _ => trivial
  | [c], _ => trivial
  | c :: d :: cs, h => by
    have ih := insSpaceAfter_noTwoSpaces tgt htw (d :: cs) (pairsOK_tail h)
    rcases insSpaceAfter_cons_shape tgt c d cs with h2 | h2 <;> rw [h2]
    · refine pairsOK_cons ?_ ih
      intro x hx
      rw [insSpaceAfter_headq tgt (d :: cs)] at hx
      simp only [List.head?_cons, Option.some.injEq] at hx
      subst hx
      exact h.1
    · have hc : tgt c = true := by
        by_contra hcon
        replace hcon : tgt c = false := by simpa using hcon
        rw [insSpaceAfter_cons_nontgt tgt (d :: cs) hcon] at h2
        simp at h2
      refine pairsOK_cons ?_ (pairsOK_cons ?_ ih)
      · intro x hx
        simp only [List.head?_cons, Option.some.injEq] at hx
        subst hx
        intro hcon
        exact nonws_ne_space (htw c hc) hcon.1
      · intro x hx
        rw [insSpaceAfter_headq tgt (d :: cs)] at hx
        simp only [List.head?_cons, Option.some.injEq] at hx
        subst hx
        intro hcon
        have hd : pyWs d = false := by
          have h3 := insSpaceAfter_cons_shape tgt c d cs
          by_contra hdw
          replace hdw : pyWs d = true := by simpa using hdw
          rw [insSpaceAfter_cons_tgt_ws tgt cs hdw] at h2
          simp at h2
        exact nonws_ne_space hd hcon.2

/-- Helper: `rmWsAfterAux` at a non-whitespace head. -/
theorem rmWsAfterAux_cons_nonws (tgt : Char → Bool) (b : Bool) {c : Char}
    (cs : List Char) (h : pyWs c = false) :
    rmWsAfterAux tgt b (c :: cs) = c :: rmWsAfterAux tgt (tgt c) cs := by
  simp [rmWsAfterAux, h]

/-- Helper: `rmWsAfterAux` keeps a whitespace head when not after a class
character. -/
theorem rmWsAfterAux_cons_ws_keep (tgt : Char → Bool) {c : Char}
    (cs : List Char) (h : pyWs c = true) :
    rmWsAfterAux tgt false (c :: cs) = c :: rmWsAfterAux tgt false cs := by
  simp [rmWsAfterAux, h]

/-- Helper: `rmWsAfterAux` drops a whitespace head when after a class
character. -/
theorem rmWsAfterAux_cons_ws_drop (tgt : Char → Bool) {c : Char}
    (cs : List Char) (h : pyWs c = true) :
    rmWsAfterAux tgt true (c :: cs) = rmWsAfterAux tgt true cs := by
  simp [rmWsAfterAux, h]

/-- Helper: in the not-after-class state the head is preserved. -/
theorem rmWsAfterAux_headq_false (tgt : Char → Bool) :
    ∀ l : List Char, (rmWsAfterAux tgt false l).head? = l.head? := by
  intro l
  cases l with
  | nil => rfl
  | cons c cs =>
    by_cases hc : pyWs c = true
    · rw [rmWsAfterAux_cons_ws_keep tgt cs hc]
      rfl
    · rw [rmWsAfterAux_cons_nonws tgt false cs (by simpa using hc)]
      rfl

/-- Helper: in the after-class state the head of the output is the first
non-whitespace character. -/
theorem rmWsAfterAux_headq_true (tgt : Char → Bool) :
    ∀ l : List Char, (rmWsAfterAux tgt true l).head? = firstNonWs l := by
  intro l
  induction l with
  | nil => rfl
  | cons c cs ih =>
    by_cases hc : pyWs c = true
    · rw [rmWsAfterAux_cons_ws_drop tgt cs hc, firstNonWs_cons_ws cs hc, ih]
    · replace hc : pyWs c = false := by simpa using hc
      rw [rmWsAfterAux_cons_nonws tgt true cs hc, firstNonWs_cons_nonws cs hc]
      rfl

/-- Helper: `rmWsAfterAux` preserves the first non-whitespace character. -/
theorem rmWsAfterAux_firstNonWs (tgt : Char → Bool) :
    ∀ (l : List Char) (b : Bool),
      firstNonWs (rmWsAfterAux tgt b l) = firstNonWs l := by
  intro l
  induction l with
  | nil => intro b; rfl
  | cons c cs ih =>
    intro b
    by_cases hc : pyWs c = true
    · cases b with
      | false =>
        rw [rmWsAfterAux_cons_ws_keep tgt cs hc, firstNonWs_cons_ws _ hc,
          firstNonWs_cons_ws cs hc, ih false]
      | true =>
        rw [rmWsAfterAux_cons_ws_drop tgt cs hc, firstNonWs_cons_ws cs hc,
          ih true]
    · replace hc : pyWs c = false := by simpa using hc
      rw [rmWsAfterAux_cons_nonws tgt b cs hc, firstNonWs_cons_nonws _ hc,
        firstNonWs_cons_nonws cs hc]

/-- Helper: `rmWsAfterAux` preserves `getLast?` when the last character
is not whitespace. -/
theorem rmWsAfterAux_getLastq (tgt : Char → Bool) :
    ∀ (l : List Char) (b : Bool), lastNonWs l →
      (rmWsAfterAux tgt b l).getLast? = l.getLast? := by
  intro l
  induction l with
  | nil => intro b _; rfl
  | cons c cs ih =>
    intro b hlast
    cases hcs : cs with
    | nil =>
      subst hcs
      have hc : pyWs c = false := by
        unfold lastNonWs at hlast
        simpa using hlast
      rw [rmWsAfterAux_cons_nonws tgt b [] hc]
      rfl
    | cons d cs2 =>
      have hne : cs ≠ [] := by rw [hcs]; simp
      rw [← hcs] at *
      have hlast2 : lastNonWs cs := lastNonWs_tail hlast hne
      have hTne : ∀ b2 : Bool, rmWsAfterAux tgt b2 cs ≠ [] := by
        intro b2 hnil
        have := ih b2 hlast2
        rw [hnil] at this
        have h0 : cs.getLast? = none := this.symm
        rw [List.getLast?_eq_none_iff] at h0
        exact hne h0
      by_cases hc : pyWs c = true
      · cases b with
        | false =>
          rw [rmWsAfterAux_cons_ws_keep tgt cs hc,
            getLastq_cons_ne (hTne false), ih false hlast2,
            getLastq_cons_ne hne]
        | true =>
          rw [rmWsAfterAux_cons_ws_drop tgt cs hc, ih true hlast2,
            getLastq_cons_ne hne]
      · rw [rmWsAfterAux_cons_nonws tgt b cs (by simpa using hc),
          getLastq_cons_ne (hTne (tgt c)), ih (tgt c) hlast2,
          getLastq_cons_ne hne]

/-- Helper: the output of `rmWsAfterAux` has no whitespace character
immediately after a class character (the class containing no
whitespace). -/
theorem rmWsAfterAux_no_ws_after (tgt : Char → Bool)
    (hwt : ∀ c, pyWs c = true → tgt c = false) :
    ∀ (l : List Char) (b : Bool),
      pairsOK (fun a b2 => tgt a = true → pyWs b2 = false)
        (rmWsAfterAux tgt b l) := by
  intro l
  induction l with
  | nil => intro b; trivial
  | cons c cs ih =>
    intro b
    by_cases hc : pyWs c = true
    · cases b with
      | false =>
        rw [rmWsAfterAux_cons_ws_keep tgt cs hc]
        refine pairsOK_cons ?_ (ih false)
        intro x _ hcon
        rw [hwt c hc] at hcon
        exact absurd hcon (by simp)
      | true =>
        rw [rmWsAfterAux_cons_ws_drop tgt cs hc]
        exact ih true
    · replace hc : pyWs c = false := by simpa using hc
      rw [rmWsAfterAux_cons_nonws tgt b cs hc]
      refine pairsOK_cons ?_ (ih (tgt c))
      intro x hx hct
      rw [hct, rmWsAfterAux_headq_true tgt cs] at hx
      exact firstNonWs_not_ws hx

/-- Helper: `rmWsAfterAux` preserves any adjacent-pair invariant that
holds of all pairs starting with a class character and ending with
non-whitespace. -/
theorem rmWsAfterAux_pairs (tgt : Char → Bool) {R : Char → Char → Prop}
    (hR : ∀ a b, tgt a = true → pyWs b = false → R a b) :
    ∀ (l : List Char) (b : Bool), pairsOK R l →
      pairsOK R (rmWsAfterAux tgt b l) := by
  intro l
  induction l with
  | nil => intro b _; trivial
  | cons c cs ih =>
    intro b h
    have htail : ∀ b2 : Bool, pairsOK R (rmWsAfterAux tgt b2 cs) :=
      fun b2 => ih b2 (pairsOK_tail h)
    by_cases hc : pyWs c = true
    · cases b with
      | false =>
        rw [rmWsAfterAux_cons_ws_keep tgt cs hc]
        refine pairsOK_cons ?_ (htail false)
        intro x hx
        rw [rmWsAfterAux_headq_false tgt cs] at hx
        exact pairsOK_headq h x hx
      | true =>
        rw [rmWsAfterAux_cons_ws_drop tgt cs hc]
        exact htail true
    · replace hc : pyWs c = false := by simpa using hc
      rw [rmWsAfterAux_cons_nonws tgt b cs hc]
      refine pairsOK_cons ?_ (htail (tgt c))
      intro x hx
      by_cases hct : tgt c = true
      · rw [hct, rmWsAfterAux_headq_true tgt cs] at hx
        exact hR c x hct (firstNonWs_not_ws hx)
      · replace hct : tgt c = false := by simpa using hct
        rw [hct, rmWsAfterAux_headq_false tgt cs] at hx
        exact pairsOK_headq h x hx

/-- Helper: `rmWsAfterAux` preserves any adjacent-triple invariant that
is vacuous at non-whitespace middles: a surviving whitespace character
keeps both its original neighbours. -/
theorem rmWsAfterAux_triples (tgt : Char → Bool)
    {R3 : Char → Char → Char → Prop}
    (H2 : ∀ a b c, pyWs b = false → R3 a b c) :
    ∀ (l : List Char) (b : Bool), triplesOK R3 l →
      triplesOK R3 (rmWsAfterAux tgt b l) := by
  intro l
  induction l with
  | nil => intro b _; trivial
  | cons c cs ih =>
    intro b h
    have htail : ∀ b2 : Bool, triplesOK R3 (rmWsAfterAux tgt b2 cs) :=
      fun b2 => ih b2 (triplesOK_tail h)
    have hhead : ∀ b2 : Bool, (∀ x y T2,
        rmWsAfterAux tgt b2 cs = x :: y :: T2 → R3 c x y) := by
      intro b2 x y T2 hT
      by_cases hxw : pyWs x = true
      · have hb2 : b2 = false := by
          cases b2 with
          | false => rfl
          | true =>
            have := rmWsAfterAux_headq_true tgt cs
            rw [hT] at this
            have hx2 : firstNonWs cs = some x := by simpa using this.symm
            rw [firstNonWs_not_ws hx2] at hxw
            exact absurd hxw (by simp)
        subst hb2
        have hxh : cs.head? = some x := by
          rw [← rmWsAfterAux_headq_false tgt cs, hT]
          rfl
        cases cs with
        | nil => exact absurd hxh (by simp)
        | cons x0 cs2 =>
          simp only [List.head?_cons, Option.some.injEq] at hxh
          subst hxh
          rw [rmWsAfterAux_cons_ws_keep tgt cs2 hxw] at hT
          simp only [List.cons.injEq] at hT
          have hT2 : rmWsAfterAux tgt false cs2 = y :: T2 := hT.2
          have hyh : cs2.head? = some y := by
            rw [← rmWsAfterAux_headq_false tgt cs2, hT2]
            rfl
          cases cs2 with
          | nil => exact absurd hyh (by simp)
          | cons y0 cs3 =>
            simp only [List.head?_cons, Option.some.injEq] at hyh
            subst hyh
            exact h.1
      · exact H2 c x y (by simpa using hxw)
    by_cases hc : pyWs c = true
    · cases b with
      | false =>
        rw [rmWsAfterAux_cons_ws_keep tgt cs hc]
        exact triplesOK_cons (hhead false) (htail false)
      | true =>
        rw [rmWsAfterAux_cons_ws_drop tgt cs hc]
        exact htail true
    · rw [rmWsAfterAux_cons_nonws tgt b cs (by simpa using hc)]
      exact triplesOK_cons (hhead (tgt c)) (htail (tgt c))

/-- Helper: a string with no whitespace directly after a class character
is fixed by `rmWsAfterAux` (in the not-after-class state; in the
after-class state provided the head is not whitespace). -/
theorem rmWsAfterAux_fix (tgt : Char → Bool) :
    ∀ (l : List Char) (b : Bool),
      pairsOK (fun a b2 => tgt a = true → pyWs b2 = false) l →
      (b = true → headNonWs l) → rmWsAfterAux tgt b l = l := by
  intro l
  induction l with
  | nil => intro b _ _; rfl
  | cons c cs ih =>
    intro b h hb
    by_cases hc : pyWs c = true
    · have hb2 : b = false := by
        cases b with
        | false => rfl
        | true =>
          have := hb rfl
          unfold headNonWs at this
          rw [this] at hc
          exact absurd hc (by simp)
      subst hb2
      rw [rmWsAfterAux_cons_ws_keep tgt cs hc,
        ih false (pairsOK_tail h) (by intro hcon; exact absurd hcon (by simp))]
    · replace hc : pyWs c = false := by simpa using hc
      rw [rmWsAfterAux_cons_nonws tgt b cs hc,
        ih (tgt c) (pairsOK_tail h) ?_]
      intro hct
      unfold headNonWs
      cases hcs : cs with
      | nil => trivial
      | cons d cs2 =>
        have := pairsOK_headq h d (by rw [hcs]; rfl)
        exact this hct

/-- Helper: `rmWsAfter` preserves a non-whitespace head. -/
theorem rmWsAfter_headNonWs (tgt : Char → Bool) {l : List Char}
    (h : headNonWs l) : headNonWs (rmWsAfter tgt l) := by
  cases l with
  | nil => trivial
  | cons c cs =>
    unfold rmWsAfter
    rw [rmWsAfterAux_cons_nonws tgt false cs h]
    exact h

/-- Helper: `stripStr` output has a non-whitespace head. -/
theorem stripStr_headNonWs (l : List Char) : headNonWs (stripStr l) := by
  unfold stripStr
  set A := l.dropWhile pyWs with hA
  set B := A.reverse.dropWhile pyWs with hB
  cases hBr : B.reverse with
  | nil => trivial
  | cons c T =>
    unfold headNonWs
    obtain ⟨t, ht⟩ : B <:+ A.reverse := List.dropWhile_suffix pyWs
    have hpre : B.reverse ++ t.reverse = A := by
      rw [← List.reverse_append, ht, List.reverse_reverse]
    have hhead : A.head? = some c := by
      rw [← hpre, List.head?_append, hBr]
      rfl
    have := List.head?_dropWhile_not pyWs l
    rw [← hA, hhead] at this
    exact this

/-- Helper: `stripStr` output has a non-whitespace last character. -/
theorem stripStr_lastNonWs (l : List Char) : lastNonWs (stripStr l) := by
  unfold stripStr lastNonWs
  rw [List.getLast?_reverse]
  have := List.head?_dropWhile_not pyWs (l.dropWhile pyWs).reverse
  cases hh : ((l.dropWhile pyWs).reverse.dropWhile pyWs).head? with
  | none => trivial
  | some c =>
    rw [hh] at this
    exact this

/-- Helper: `stripStr` fixes strings whose two ends are not whitespace. -/
theorem stripStr_fix {l : List Char} (h1 : headNonWs l) (h2 : lastNonWs l) :
    stripStr l = l := by
  unfold stripStr
  have e1 : l.dropWhile pyWs = l := by
    cases l with
    | nil => rfl
    | cons c cs => exact List.dropWhile_cons_of_neg (by simp [headNonWs] at h1; simp [h1])
  rw [e1]
  have e2 : l.reverse.dropWhile pyWs = l.reverse := by
    cases hr : l.reverse with
    | nil => rfl
    | cons c cs =>
      refine List.dropWhile_cons_of_neg ?_
      have : l.reverse.head? = some c := by rw [hr]; rfl
      rw [List.head?_reverse] at this
      unfold lastNonWs at h2
      rw [this] at h2
      simp [h2]
  rw [e2, List.reverse_reverse]

/-- Helper: whitespace characters are not openers. -/
theorem ws_not_opener {c : Char} (h : pyWs c = true) : openerChar c = false := by
  simp only [pyWs, Bool.or_eq_true, decide_eq_true_eq] at h
  obtain ((((h | h) | h) | h) | h) | h := h <;> subst h <;> decide

/-- Helper: opener characters are not punctuation. -/
theorem opener_not_punct {c : Char} (h : openerChar c = true) :
    punctChar c = false := by
  simp only [openerChar, Bool.or_eq_true, decide_eq_true_eq] at h
  obtain ((h | h) | h) | h := h <;> subst h <;> decide

/-- The punctuation-before-non-whitespace window invariant: punctuation
directly followed by a non-whitespace character is followed by a closer. -/
def g4rel (a b : Char) : Prop :=
  punctChar a = true → pyWs b = false → closerChar b = true

/-- The no-whitespace-before-closer window invariant. -/
def g5rel (a b : Char) : Prop :=
  pyWs a = true → closerChar b = false

/-- The no-whitespace-after-opener window invariant. -/
def g6rel (a b : Char) : Prop :=
  openerChar a = true → pyWs b = false

/-- The normal form of the pipeline output: both ends non-whitespace, no
two adjacent spaces, and the four local window invariants. -/
def Good (y : List Char) : Prop :=
  headNonWs y ∧ lastNonWs y ∧ noTwoSpaces y ∧ triplesOK g3rel y ∧
    pairsOK g4rel y ∧ pairsOK g5rel y ∧ pairsOK g6rel y

/-- The normalization pipeline on non-empty input. -/
def normPipe (l : List Char) : List Char :=
  rmWsAfter openerChar (rmWsBefore closerChar (collapseSpaces
    (insSpaceAfter punctChar (rmWsBefore punctChar (collapseSpaces
      (stripStr l))))))

/-- Helper: `normalize_text` written through `normPipe`. -/
theorem normalize_text_eq_pipe (l : List Char) :
    normalize_text l = if l = [] then l else normPipe l := rfl

/-- Helper: transfer of `headNonWs` along equal heads. -/
theorem headNonWs_of_headq {X Y : List Char} (h : X.head? = Y.head?)
    (hY : headNonWs Y) : headNonWs X := by
  cases X with
  | nil => trivial
  | cons c cs =>
    unfold headNonWs
    cases Y with
    | nil => exact absurd h (by simp)
    | cons d ds =>
      simp only [List.head?_cons, Option.some.injEq] at h
      rw [h]
      exact hY

/-- Helper: transfer of `lastNonWs` along equal `getLast?`. -/
theorem lastNonWs_of_getLastq {X Y : List Char} (h : X.getLast? = Y.getLast?)
    (hY : lastNonWs Y) : lastNonWs X := by
  unfold lastNonWs at hY ⊢
  rw [h]
  exact hY

/-- Every output of the normalization pipeline is in normal form. -/
theorem normPipe_good (l : List Char) : Good (normPipe l) := by
  set t1 := stripStr l with ht1
  set t2 := collapseSpaces t1 with ht2
  set t3 := rmWsBefore punctChar t2 with ht3
  set t4 := insSpaceAfter punctChar t3 with ht4
  have hh1 : headNonWs t1 := stripStr_headNonWs l
  have hl1 : lastNonWs t1 := stripStr_lastNonWs l
  have hh2 : headNonWs t2 := headNonWs_of_headq (collapseSpaces_headq t1) hh1
  have hl2 : lastNonWs t2 := lastNonWs_of_getLastq (collapseSpaces_getLastq t1) hl1
  have hs2 : noTwoSpaces t2 := collapseSpaces_noTwoSpaces t1
  have hh3 : headNonWs t3 := rmWsBefore_headNonWs punctChar hh2
  have hl3 : lastNonWs t3 :=
    lastNonWs_of_getLastq (rmWsBefore_getLastq punctChar t2 hl2) hl2
  have hs3 : noTwoSpaces t3 :=
    rmWsBefore_pairs punctChar
      (fun a b hb => fun hcon => punct_not_space hb hcon.2) t2 hs2
  have hn3 : pairsOK (fun a b => pyWs a = true → punctChar b = false) t3 :=
    rmWsBefore_no_ws_before punctChar (fun c hc => ws_not_punct hc) t2
  have hh4 : headNonWs t4 :=
    headNonWs_of_headq (insSpaceAfter_headq punctChar t3) hh3
  have hl4 : lastNonWs t4 :=
    lastNonWs_of_getLastq (insSpaceAfter_getLastq punctChar t3) hl3
  have hs4 : noTwoSpaces t4 :=
    insSpaceAfter_noTwoSpaces punctChar (fun c hc => punct_not_ws hc) t3 hs3
  have hg3t4 : triplesOK g3rel t4 := insSpaceAfter_g3 t3 hn3
  have he4 : pairsOK (fun a b => punctChar a = true → pyWs b = true) t4 :=
    insSpaceAfter_tgt_before_ws punctChar (fun c hc => punct_not_ws hc) t3
  have ht5 : collapseSpaces t4 = t4 := collapseSpaces_fix t4 hs4
  have hpipe : normPipe l =
      rmWsAfter openerChar (rmWsBefore closerChar t4) := by
    unfold normPipe
    rw [← ht1, ← ht2, ← ht3, ← ht4, ht5]
  set t6 := rmWsBefore closerChar t4 with ht6
  have hh6 : headNonWs t6 := rmWsBefore_headNonWs closerChar hh4
  have hl6 : lastNonWs t6 :=
    lastNonWs_of_getLastq (rmWsBefore_getLastq closerChar t4 hl4) hl4
  have hs6 : noTwoSpaces t6 :=
    rmWsBefore_pairs closerChar
      (fun a b hb => fun hcon => closer_not_space hb hcon.2) t4 hs4
  have hg3t6 : triplesOK g3rel t6 :=
    rmWsBefore_triples closerChar
      (fun a b c hb => fun hbw _ => absurd hbw (by rw [hb]; simp)) t4 hg3t4
  have hg4t6 : pairsOK g4rel t6 :=
    rmWsBefore_pairs closerChar (fun a b hb => fun _ _ => hb) t4
      (pairsOK_mono (fun a b hab => fun hp hnw =>
        absurd (hab hp) (by rw [hnw]; simp)) he4)
  have hg5t6 : pairsOK g5rel t6 :=
    rmWsBefore_no_ws_before closerChar (fun c hc => ws_not_closer hc) t4
  rw [hpipe]
  refine ⟨rmWsAfter_headNonWs openerChar hh6,
    lastNonWs_of_getLastq (rmWsAfterAux_getLastq openerChar t6 false hl6) hl6,
    rmWsAfterAux_pairs openerChar
      (fun a b ha hb => fun hcon => opener_not_space ha hcon.1) t6 false hs6,
    rmWsAfterAux_triples openerChar
      (fun a b c hb => fun hbw _ => absurd hbw (by rw [hb]; simp)) t6 false hg3t6,
    rmWsAfterAux_pairs openerChar
      (fun a b ha hb => fun hp _ => absurd (opener_not_punct ha) (by rw [hp]; simp))
      t6 false hg4t6,
    rmWsAfterAux_pairs openerChar
      (fun a b ha hb => fun hw => absurd (opener_not_ws ha) (by rw [hw]; simp))
      t6 false hg5t6,
    rmWsAfterAux_no_ws_after openerChar (fun c hc => ws_not_opener hc) t6 false⟩

/-- Helper: punctuation characters are not closers. -/
theorem punct_not_closer {c : Char} (h : punctChar c = true) :
    closerChar c = false := by
  simp only [punctChar, Bool.or_eq_true, decide_eq_true_eq] at h
  obtain ((((h | h) | h) | h) | h) | h := h <;> subst h <;> decide

/-- Helper: `nextNonWsTgt` only depends on the first non-whitespace
character. -/
theorem nextNonWsTgt_congr (tgt : Char → Bool) {X Y : List Char}
    (h : firstNonWs X = firstNonWs Y) :
    nextNonWsTgt tgt X = nextNonWsTgt tgt Y := by
  unfold nextNonWsTgt
  rw [h]

/-- Helper: a string whose head is provably not a space does not start
with a space. -/
theorem headIsSpace_false {X : List Char}
    (h : ∀ a, X.head? = some a → a ≠ ' ') : headIsSpace X = false := by
  cases X with
  | nil => rfl
  | cons c cs =>
    simp only [headIsSpace, decide_eq_false_iff_not]
    exact h c rfl

/-- Helper: scanning over a whitespace run protected by the
whitespace-before-punctuation invariant, the nearest non-whitespace
character is not punctuation when the character before the run is not. -/
theorem ws_scan_punct : ∀ (T : List Char) (a w : Char), pyWs w = true →
    punctChar a = false → triplesOK g3rel (a :: w :: T) →
    nextNonWsTgt punctChar (w :: T) = false := by
  intro T
  induction T with
  | nil =>
    intro a w hw _ _
    rw [nextNonWsTgt_cons_ws punctChar [] hw]
    rfl
  | cons d T2 ih =>
    intro a w hw ha h3
    rw [nextNonWsTgt_cons_ws punctChar (d :: T2) hw]
    by_cases hd : pyWs d = true
    · exact ih w d hd (ws_not_punct hw) (triplesOK_tail h3)
    · replace hd : pyWs d = false := by simpa using hd
      rw [nextNonWsTgt_cons_nonws punctChar T2 hd]
      by_contra hcon
      replace hcon : punctChar d = true := by simpa using hcon
      have := (triplesOK_head h3) hw hcon
      rw [ha] at this
      exact absurd this.2 (by simp)

/-- Helper: scanning over a whitespace run protected by the
no-whitespace-before-closer invariant, the nearest non-whitespace
character is not a closer. -/
theorem ws_scan_closer : ∀ (T : List Char) (w : Char), pyWs w = true →
    pairsOK g5rel (w :: T) → nextNonWsTgt closerChar (w :: T) = false := by
  intro T
  induction T with
  | nil =>
    intro w hw _
    rw [nextNonWsTgt_cons_ws closerChar [] hw]
    rfl
  | cons d T2 ih =>
    intro w hw h5
    rw [nextNonWsTgt_cons_ws closerChar (d :: T2) hw]
    by_cases hd : pyWs d = true
    · exact ih d hd (pairsOK_tail h5)
    · replace hd : pyWs d = false := by simpa using hd
      rw [nextNonWsTgt_cons_nonws closerChar T2 hd]
      exact (pairsOK_head h5) hw

/-- A string either starts with a non-whitespace character, or its
leading whitespace run is followed by neither punctuation nor a closer
(trivially satisfied by strings exhausted by the run). -/
def startOK (y : List Char) : Prop :=
  headNonWs y ∨
    (nextNonWsTgt punctChar y = false ∧ nextNonWsTgt closerChar y = false)

/-- The inner four substitutions of the pipeline: collapse spaces
happened before, and the opener stage happens after. -/
def centerPipe (y : List Char) : List Char :=
  rmWsBefore closerChar (collapseSpaces
    (insSpaceAfter punctChar (rmWsBefore punctChar y)))

/-- Helper: `centerPipe` keeps a head that is neither whitespace nor
punctuation and recurses on the tail. -/
theorem centerPipe_cons_plain {c : Char} (T : List Char)
    (hc : pyWs c = false) (hp : punctChar c = false) :
    centerPipe (c :: T) = c :: centerPipe T := by
  unfold centerPipe
  rw [rmWsBefore_cons_nonws punctChar T hc,
    insSpaceAfter_cons_nontgt punctChar _ hp, collapseSpaces_cons,
    if_neg (by simp [nonws_ne_space hc]),
    rmWsBefore_cons_nonws closerChar _ hc]

/-- Helper: `centerPipe` keeps a whitespace head whose following
non-whitespace character (if any) is neither punctuation nor a closer,
and recurses on the tail. -/
theorem centerPipe_cons_ws {c : Char} {T : List Char} (hc : pyWs c = true)
    (hp : nextNonWsTgt punctChar T = false)
    (hcl : nextNonWsTgt closerChar T = false)
    (hsp : noTwoSpaces (c :: T)) :
    centerPipe (c :: T) = c :: centerPipe T := by
  unfold centerPipe
  rw [rmWsBefore_cons_ws_keep punctChar T hc hp,
    insSpaceAfter_cons_nontgt punctChar _ (ws_not_punct hc)]
  have hZ : (insSpaceAfter punctChar (rmWsBefore punctChar T)).head? =
      T.head? := by
    rw [insSpaceAfter_headq, rmWsBefore_headq punctChar T hp]
  have hguard : headIsSpace
      (insSpaceAfter punctChar (rmWsBefore punctChar T)) = false ∨ c ≠ ' ' := by
    by_cases hcsp : c = ' '
    · left
      refine headIsSpace_false ?_
      intro a ha
      rw [hZ] at ha
      cases T with
      | nil => exact absurd ha (by simp)
      | cons t0 ts =>
        simp only [List.head?_cons, Option.some.injEq] at ha
        subst ha
        intro hasp
        exact hsp.1 ⟨hcsp, hasp⟩
    · right; exact hcsp
  rw [collapseSpaces_cons, if_neg (by
    rcases hguard with hg | hg
    · simp [hg]
    · simp [hg])]
  have hfw : firstNonWs (collapseSpaces
      (insSpaceAfter punctChar (rmWsBefore punctChar T))) = firstNonWs T := by
    rw [collapseSpaces_firstNonWs,
      insSpaceAfter_firstNonWs punctChar (fun x hx => punct_not_ws hx),
      rmWsBefore_firstNonWs]
  rw [rmWsBefore_cons_ws_keep closerChar _ hc
    (by rw [nextNonWsTgt_congr closerChar hfw]; exact hcl)]

/-- Helper: `centerPipe` on punctuation directly followed by a closer
keeps both characters and recurses past them. -/
theorem centerPipe_punct_closer {c d : Char} (T2 : List Char)
    (hc : punctChar c = true) (hd : closerChar d = true) :
    centerPipe (c :: d :: T2) = c :: d :: centerPipe T2 := by
  have hcw : pyWs c = false := punct_not_ws hc
  have hdw : pyWs d = false := closer_not_ws hd
  unfold centerPipe
  rw [rmWsBefore_cons_nonws punctChar _ hcw,
    rmWsBefore_cons_nonws punctChar _ hdw,
    insSpaceAfter_cons_tgt_nonws punctChar _ hc hdw,
    insSpaceAfter_cons_nontgt punctChar _ (closer_not_punct hd),
    collapseSpaces_cons, if_neg (by simp [punct_not_space hc]),
    collapseSpaces_cons (c := ' '),
    if_neg (by simp [headIsSpace, closer_not_space hd]),
    collapseSpaces_cons (c := d), if_neg (by simp [closer_not_space hd]),
    rmWsBefore_cons_nonws closerChar _ hcw,
    rmWsBefore_cons_ws_drop closerChar _ (by decide)
      (by rw [nextNonWsTgt_cons_nonws closerChar _ hdw]; exact hd),
    rmWsBefore_cons_nonws closerChar _ hdw]

/-- Helper: `centerPipe` on punctuation, a single space, and a second
punctuation character keeps all of them: the space is removed by the
whitespace-before-punctuation substitution and reinserted by the
space-after-punctuation substitution. -/
theorem centerPipe_punct_space_punct {c e : Char} (T3 : List Char)
    (hc : punctChar c = true) (he : punctChar e = true) :
    centerPipe (c :: ' ' :: e :: T3) = c :: ' ' :: centerPipe (e :: T3) := by
  have hcw : pyWs c = false := punct_not_ws hc
  have hew : pyWs e = false := punct_not_ws he
  have hV : (insSpaceAfter punctChar (rmWsBefore punctChar (e :: T3))).head? =
      some e := by
    rw [insSpaceAfter_headq, rmWsBefore_cons_nonws punctChar _ hew]
    rfl
  unfold centerPipe
  rw [rmWsBefore_cons_nonws punctChar _ hcw,
    rmWsBefore_cons_ws_drop punctChar _ (by decide)
      (by rw [nextNonWsTgt_cons_nonws punctChar _ hew]; exact he)]
  rw [show rmWsBefore punctChar (e :: T3) =
      e :: rmWsBefore punctChar T3 from rmWsBefore_cons_nonws punctChar _ hew,
    insSpaceAfter_cons_tgt_nonws punctChar _ hc hew,
    ← rmWsBefore_cons_nonws punctChar T3 hew]
  rw [collapseSpaces_cons, if_neg (by simp [punct_not_space hc]),
    collapseSpaces_cons (c := ' '), if_neg (by
      rw [headIsSpace_false (fun a ha => by
        rw [hV] at ha
        simp only [Option.some.injEq] at ha
        subst ha
        exact punct_not_space he)]
      simp)]
  have hfw : firstNonWs (collapseSpaces
      (insSpaceAfter punctChar (rmWsBefore punctChar (e :: T3)))) =
      firstNonWs (e :: T3) := by
    rw [collapseSpaces_firstNonWs,
      insSpaceAfter_firstNonWs punctChar (fun x hx => punct_not_ws hx),
      rmWsBefore_firstNonWs]
  rw [rmWsBefore_cons_nonws closerChar _ hcw,
    rmWsBefore_cons_ws_keep closerChar _ (by decide) (by
      rw [nextNonWsTgt_congr closerChar hfw,
        nextNonWsTgt_cons_nonws closerChar _ hew]
      exact punct_not_closer he)]

/-- Helper: `centerPipe` on punctuation, one whitespace character, and a
non-whitespace character that is neither punctuation nor a closer keeps
all of them and recurses. -/
theorem centerPipe_punct_ws_plain {c d e : Char} (T3 : List Char)
    (hc : punctChar c = true) (hd : pyWs d = true) (hew : pyWs e = false)
    (hep : punctChar e = false) (hecl : closerChar e = false) :
    centerPipe (c :: d :: e :: T3) = c :: d :: centerPipe (e :: T3) := by
  have hcw : pyWs c = false := punct_not_ws hc
  have hV : (insSpaceAfter punctChar (rmWsBefore punctChar (e :: T3))).head? =
      some e := by
    rw [insSpaceAfter_headq, rmWsBefore_cons_nonws punctChar _ hew]
    rfl
  unfold centerPipe
  rw [rmWsBefore_cons_nonws punctChar _ hcw,
    rmWsBefore_cons_ws_keep punctChar _ hd (by
      rw [nextNonWsTgt_cons_nonws punctChar _ hew]; exact hep)]
  rw [show rmWsBefore punctChar (e :: T3) =
      e :: rmWsBefore punctChar T3 from rmWsBefore_cons_nonws punctChar _ hew,
    insSpaceAfter_cons_tgt_ws punctChar _ hd,
    insSpaceAfter_cons_nontgt punctChar _ (ws_not_punct hd),
    ← rmWsBefore_cons_nonws punctChar T3 hew]
  rw [collapseSpaces_cons, if_neg (by simp [punct_not_space hc]),
    collapseSpaces_cons (c := d), if_neg (by
      rw [headIsSpace_false (fun a ha => by
        rw [hV] at ha
        simp only [Option.some.injEq] at ha
        subst ha
        exact nonws_ne_space hew)]
      simp)]
  have hfw : firstNonWs (collapseSpaces
      (insSpaceAfter punctChar (rmWsBefore punctChar (e :: T3)))) =
      firstNonWs (e :: T3) := by
    rw [collapseSpaces_firstNonWs,
      insSpaceAfter_firstNonWs punctChar (fun x hx => punct_not_ws hx),
      rmWsBefore_firstNonWs]
  rw [rmWsBefore_cons_nonws closerChar _ hcw,
    rmWsBefore_cons_ws_keep closerChar _ hd (by
      rw [nextNonWsTgt_congr closerChar hfw,
        nextNonWsTgt_cons_nonws closerChar _ hew]
      exact hecl)]

/-- Helper: `centerPipe` keeps a punctuation head followed by whitespace
whose nearest non-whitespace successor is not punctuation, and recurses
on the tail. -/
theorem centerPipe_cons_punct_ws {c w : Char} {T' : List Char}
    (hc : punctChar c = true) (hw : pyWs w = true)
    (hp : nextNonWsTgt punctChar (w :: T') = false) :
    centerPipe (c :: w :: T') = c :: centerPipe (w :: T') := by
  have hX : (rmWsBefore punctChar (w :: T')).head? = some w := by
    rw [rmWsBefore_headq punctChar _ hp]
    rfl
  unfold centerPipe
  rw [rmWsBefore_cons_nonws punctChar _ (punct_not_ws hc)]
  obtain ⟨X2, hX2⟩ : ∃ X2, rmWsBefore punctChar (w :: T') = w :: X2 := by
    cases hXX : rmWsBefore punctChar (w :: T') with
    | nil =>
      rw [hXX] at hX
      exact absurd hX (by simp)
    | cons a A =>
      rw [hXX] at hX
      simp only [List.head?_cons, Option.some.injEq] at hX
      exact ⟨A, by rw [hX]⟩
  rw [hX2, insSpaceAfter_cons_tgt_ws punctChar _ hw, ← hX2,
    collapseSpaces_cons, if_neg (by simp [punct_not_space hc]),
    rmWsBefore_cons_nonws closerChar _ (punct_not_ws hc)]

/-- Helper: `centerPipe` of a non-whitespace singleton. -/
theorem centerPipe_single {c : Char} (hc : pyWs c = false) :
    centerPipe [c] = [c] := by
  simp [centerPipe, rmWsBefore, rmWsBeforeAux, insSpaceAfter,
    collapseSpaces, hc]

/-- Helper: `lastNonWs` restricts to the tail (trivially for an empty
tail). -/
theorem lastNonWs_tail_any {c : Char} {cs : List Char}
    (h : lastNonWs (c :: cs)) : lastNonWs cs := by
  cases cs with
  | nil => trivial
  | cons d ds => exact lastNonWs_tail h (by simp)

/-- Helper: a tail preceded by a non-punctuation character inside a
string satisfying the window invariants has an admissible start. -/
theorem startOK_of_prev {x : Char} {T : List Char} (hx : punctChar x = false)
    (hg3 : triplesOK g3rel (x :: T)) (hg5 : pairsOK g5rel (x :: T)) :
    startOK T := by
  cases T with
  | nil => exact Or.inl trivial
  | cons w T2 =>
    by_cases hw : pyWs w = true
    · exact Or.inr ⟨ws_scan_punct T2 x w hw hx hg3,
        ws_scan_closer T2 w hw (pairsOK_tail hg5)⟩
    · exact Or.inl (by simpa using hw)

/-- Every string satisfying the window invariants, the trailing
non-whitespace condition and the admissible-start condition is a fixed
point of the four inner substitutions. -/
theorem centerPipe_fix : ∀ (n : Nat) (y : List Char), y.length ≤ n →
    noTwoSpaces y → triplesOK g3rel y → pairsOK g4rel y → pairsOK g5rel y →
    lastNonWs y → startOK y → centerPipe y = y := by
  intro n
  induction n with
  | zero =>
    intro y hlen _ _ _ _ _ _
    have hy : y = [] := List.length_eq_zero.mp (Nat.le_zero.mp hlen)
    subst hy
    rfl
  | succ n ih =>
    intro y hlen hsp hg3 hg4 hg5 hlast hstart
    cases y with
    | nil => rfl
    | cons c T =>
      have hlen1 : T.length ≤ n := by
        simp only [List.length_cons] at hlen
        omega
      by_cases hcw : pyWs c = true
      · cases T with
        | nil =>
          exfalso
          unfold lastNonWs at hlast
          simp only [List.getLast?_singleton] at hlast
          rw [hcw] at hlast
          exact absurd hlast (by simp)
        | cons t0 ts =>
          obtain hst | ⟨hp, hcl⟩ := hstart
          · unfold headNonWs at hst
            rw [hst] at hcw
            exact absurd hcw (by simp)
          · rw [nextNonWsTgt_cons_ws punctChar _ hcw] at hp
            rw [nextNonWsTgt_cons_ws closerChar _ hcw] at hcl
            rw [centerPipe_cons_ws hcw hp hcl hsp]
            congr 1
            exact ih (t0 :: ts) hlen1 (pairsOK_tail hsp) (triplesOK_tail hg3)
              (pairsOK_tail hg4) (pairsOK_tail hg5) (lastNonWs_tail_any hlast)
              (Or.inr ⟨hp, hcl⟩)
      · replace hcw : pyWs c = false := by simpa using hcw
        by_cases hcp : punctChar c = true
        · cases T with
          | nil => exact centerPipe_single hcw
          | cons d T2 =>
            have hlen2 : T2.length ≤ n := by
              simp only [List.length_cons] at hlen1
              omega
            by_cases hdw : pyWs d = true
            · cases T2 with
              | nil =>
                exfalso
                have h2 := lastNonWs_tail_any hlast
                unfold lastNonWs at h2
                simp only [List.getLast?_singleton] at h2
                rw [hdw] at h2
                exact absurd h2 (by simp)
              | cons e T3 =>
                by_cases hew : pyWs e = true
                · have hp : nextNonWsTgt punctChar (d :: e :: T3) = false := by
                    rw [nextNonWsTgt_cons_ws punctChar _ hdw]
                    exact ws_scan_punct T3 d e hew (ws_not_punct hdw)
                      (triplesOK_tail hg3)
                  have hcl : nextNonWsTgt closerChar (d :: e :: T3) = false :=
                    ws_scan_closer (e :: T3) d hdw (pairsOK_tail hg5)
                  rw [centerPipe_cons_punct_ws hcp hdw hp]
                  congr 1
                  exact ih (d :: e :: T3) hlen1 (pairsOK_tail hsp)
                    (triplesOK_tail hg3) (pairsOK_tail hg4) (pairsOK_tail hg5)
                    (lastNonWs_tail_any hlast) (Or.inr ⟨hp, hcl⟩)
                · replace hew : pyWs e = false := by simpa using hew
                  have hlen3 : (e :: T3).length ≤ n := by
                    simp only [List.length_cons] at hlen1
                    simp only [List.length_cons]
                    omega
                  by_cases hep : punctChar e = true
                  · obtain ⟨hdsp, _⟩ := (triplesOK_head hg3) hdw hep
                    subst hdsp
                    rw [centerPipe_punct_space_punct T3 hcp hep]
                    congr 2
                    exact ih (e :: T3) hlen3
                      (pairsOK_tail (pairsOK_tail hsp))
                      (triplesOK_tail (triplesOK_tail hg3))
                      (pairsOK_tail (pairsOK_tail hg4))
                      (pairsOK_tail (pairsOK_tail hg5))
                      (lastNonWs_tail_any (lastNonWs_tail_any hlast))
                      (Or.inl hew)
                  · replace hep : punctChar e = false := by simpa using hep
                    have hecl : closerChar e = false :=
                      (pairsOK_head (pairsOK_tail hg5)) hdw
                    rw [centerPipe_punct_ws_plain T3 hcp hdw hew hep hecl]
                    congr 2
                    exact ih (e :: T3) hlen3
                      (pairsOK_tail (pairsOK_tail hsp))
                      (triplesOK_tail (triplesOK_tail hg3))
                      (pairsOK_tail (pairsOK_tail hg4))
                      (pairsOK_tail (pairsOK_tail hg5))
                      (lastNonWs_tail_any (lastNonWs_tail_any hlast))
                      (Or.inl hew)
            · replace hdw : pyWs d = false := by simpa using hdw
              have hdcl : closerChar d = true := (pairsOK_head hg4) hcp hdw
              rw [centerPipe_punct_closer T2 hcp hdcl]
              congr 2
              exact ih T2 hlen2 (pairsOK_tail (pairsOK_tail hsp))
                (triplesOK_tail (triplesOK_tail hg3))
                (pairsOK_tail (pairsOK_tail hg4))
                (pairsOK_tail (pairsOK_tail hg5))
                (lastNonWs_tail_any (lastNonWs_tail_any hlast))
                (startOK_of_prev (closer_not_punct hdcl)
                  (triplesOK_tail hg3) (pairsOK_tail hg5))
        · replace hcp : punctChar c = false := by simpa using hcp
          rw [centerPipe_cons_plain T hcw hcp]
          congr 1
          cases T with
          | nil => rfl
          | cons t0 ts =>
            exact ih (t0 :: ts) hlen1 (pairsOK_tail hsp) (triplesOK_tail hg3)
              (pairsOK_tail hg4) (pairsOK_tail hg5) (lastNonWs_tail_any hlast)
              (startOK_of_prev hcp hg3 hg5)

/-- Helper: every string in normal form is a fixed point of the whole
pipeline. -/
theorem normPipe_fix {y : List Char} (h : Good y) : normPipe y = y := by
  obtain ⟨hh, hl, hs, hg3, hg4, hg5, hg6⟩ := h
  have hcenter : centerPipe y = y :=
    centerPipe_fix y.length y le_rfl hs hg3 hg4 hg5 hl (Or.inl hh)
  unfold centerPipe at hcenter
  unfold normPipe
  rw [stripStr_fix hh hl, collapseSpaces_fix y hs, hcenter]
  unfold rmWsAfter
  refine rmWsAfterAux_fix openerChar y false
    (pairsOK_mono (fun a b hab => hab) hg6) ?_
  intro hcon
  exact absurd hcon (by simp)

/-- C3: the text normalizer is idempotent: for every input string x,
normalize(normalize(x)) equals normalize(x). -/
theorem c3_normalize_text_idempotent (l : List Char) :
    normalize_text (normalize_text l) = normalize_text l := by
  by_cases h : l = []
  · subst h
    rfl
  · rw [normalize_text_eq_pipe l, if_neg h, normalize_text_eq_pipe (normPipe l)]
    by_cases h2 : normPipe l = []
    · rw [if_pos h2]
    · rw [if_neg h2]
      exact normPipe_fix (normPipe_good l)
